import Mathlib

/-!
# StructureOfArrays: a shallow embedding of `SoA.h`

The container `SoA<Elements...>` keeps one raw block obtained from an
`Allocator` and carves it into one sub-array per field.  The embedding keeps
the block at byte level:

* a field list is described by a `Layout` (the `sizeof` of every field and
  `sizeof(std::tuple<Elements...>)`, which `SoA.h` uses but does not define);
* a value of field `i` is its object representation, a list of `sizeof(T_i)`
  bytes (the field types are trivially copyable, as in `main.cpp`);
* the allocator and the memory it hands out form a `Heap`; `size_t`
  arithmetic is taken modulo `2 ^ 64`;
* the `assert`s are active; an `assert` that fails and an access outside a
  live block end the run with an `Err`;
* a pointer is a block and a byte offset into it, `get_array` and `get`
  compute offsets; `malloc` serves a request up to the heap's `limit` with a
  fresh block and returns `nullptr` otherwise.
-/

namespace StructureOfArrays

/-! ## Memory, allocator -/

/-- Modulus of `size_t` arithmetic. -/
def sizeMod : Nat := 18446744073709551616

/-- Ways a run stops: a failed `assert`, or undefined behaviour (an access
through a null or dangling pointer, or outside the bounds of its block). -/
inductive Err where
  | assert
  | ub
  deriving DecidableEq, Repr

/-- A pointer: the block it points into (`0` is `nullptr`) and a byte offset. -/
structure Ptr where
  base : Nat
  off : Nat
  deriving DecidableEq, Repr

/-- A live block: its size in bytes and its contents. -/
structure Block where
  size : Nat
  mem : Nat → Nat

/-- Calls observed on the allocator, and destructor calls on stored values. -/
inductive Event where
  | alloc (bytes ptr : Nat)
  | dealloc (ptr : Nat)
  | dtor (field idx : Nat)
  deriving DecidableEq, Repr

/-- The `Mallocator` together with the memory it manages.  `limit` is the
largest request `malloc` satisfies, `next` the next block handed out, `junk`
the indeterminate contents of a fresh block, `log` the calls seen so far. -/
structure Heap where
  limit : Nat
  next : Nat
  junk : Nat → Nat → Nat
  blocks : Nat → Option Block
  log : List Event

/-- `Mallocator::allocate`: `malloc(size)`, the alignment is ignored.  Returns
`nullptr` (`0`) when the request cannot be satisfied. -/
def Mallocator.allocate (h : Heap) (size : Nat) : Nat × Heap :=
  if size ≤ h.limit then
    (h.next,
      { h with
        next := h.next + 1
        blocks := fun p => if p = h.next then some ⟨size, h.junk h.next⟩ else h.blocks p
        log := h.log ++ [Event.alloc size h.next] })
  else
    (0, { h with log := h.log ++ [Event.alloc size 0] })

/-- `Mallocator::deallocate`: `free(p)`.  Freeing `nullptr` does nothing,
freeing a block that is not live is undefined. -/
def Mallocator.deallocate (h : Heap) (p : Nat) : Except Err Heap :=
  if p = 0 then
    .ok { h with log := h.log ++ [Event.dealloc 0] }
  else
    match h.blocks p with
    | none => .error .ub
    | some _ =>
      .ok { h with
            blocks := fun q => if q = p then none else h.blocks q
            log := h.log ++ [Event.dealloc p] }

/-- `Mallocator::allocation_size`: always `0`. -/
def Mallocator.allocation_size (_h : Heap) (_p : Nat) : Nat := 0

/-- Read `n` bytes through `p`. -/
def Heap.load (h : Heap) (p : Ptr) (n : Nat) : Except Err (List Nat) :=
  if p.base = 0 then .error .ub
  else
    match h.blocks p.base with
    | none => .error .ub
    | some b =>
      if p.off + n ≤ b.size then .ok ((List.range n).map fun k => b.mem (p.off + k))
      else .error .ub

/-- Contents of a block after the bytes `v` are written at offset `off`. -/
def writeMem (mem : Nat → Nat) (off : Nat) (v : List Nat) : Nat → Nat :=
  fun a => if off ≤ a ∧ a < off + v.length then v.getD (a - off) 0 else mem a

/-- Write the bytes `v` through `p`. -/
def Heap.store (h : Heap) (p : Ptr) (v : List Nat) : Except Err Heap :=
  if p.base = 0 then .error .ub
  else
    match h.blocks p.base with
    | none => .error .ub
    | some b =>
      if p.off + v.length ≤ b.size then
        .ok { h with
              blocks := fun q =>
                if q = p.base then some ⟨b.size, writeMem b.mem p.off v⟩ else h.blocks q }
      else .error .ub

/-- `memcpy(dst, src, n)`. -/
def memcpy (h : Heap) (dst src : Ptr) (n : Nat) : Except Err Heap :=
  match h.load src n with
  | .error e => .error e
  | .ok v => h.store dst v

/-! ## `static_for` -/

/-- The unrolling of `static_for<First, Last>`: `n` calls `f First`,
`f (First + 1)`, ... threaded through the state. -/
def static_for_loop {σ : Type} (f : Nat → σ → Except Err σ) : Nat → Nat → σ → Except Err σ
  | 0, _, st => .ok st
  | n + 1, First, st =>
    match f First st with
    | .error e => .error e
    | .ok st1 => static_for_loop f n (First + 1) st1

/-- `static_for<First, Last>(f)`: calls `f(First)`, then
`static_for<First + 1, Last>(f)`, as long as `First < Last`. -/
def static_for {σ : Type} (First Last : Nat) (f : Nat → σ → Except Err σ) (st : σ) :
    Except Err σ :=
  static_for_loop f (Last - First) First st

/-! ## The container -/

/-- The field list `Elements...`: `sizes[i]` is `sizeof(T_i)`, and `tupleSize`
is `sizeof(std::tuple<Elements...>)`. -/
structure Layout where
  sizes : List Nat
  tupleSize : Nat

/-- `kNumArrays = sizeof...(Elements)`. -/
def Layout.kNumArrays (L : Layout) : Nat := L.sizes.length

/-- `sizeof(NthTypeOf<N>)`. -/
def Layout.sizeofNth (L : Layout) (N : Nat) : Nat := L.sizes.getD N 0

/-- The data members of `SoA`. -/
structure SoA where
  m_n : Nat
  m_size : Nat
  m_allocator : Nat
  m_data : Nat
  deriving DecidableEq, Repr

/-- The constructor `SoA(Allocator* allocator)`. -/
def SoA.new (allocator : Nat) : SoA :=
  { m_n := 0, m_size := 0, m_allocator := allocator, m_data := 0 }

/-- `get_array<Index>(data, size)`: the start of sub-array `Index`. -/
def SoA.get_array (L : Layout) : Nat → Nat → Nat → Ptr
  | 0, data, _ => ⟨data, 0⟩
  | Index + 1, data, size =>
    let prev_array := SoA.get_array L Index data size
    ⟨prev_array.base, prev_array.off + size * L.sizeofNth Index⟩

/-- `get<Index>(i)`: the reference `array[i]` into sub-array `Index`. -/
def SoA.get (L : Layout) (s : SoA) (Index i : Nat) : Ptr :=
  let array := SoA.get_array L Index s.m_data s.m_size
  ⟨array.base, array.off + i * L.sizeofNth Index⟩

/-- The value read through the reference `get<Index>(i)`. -/
def SoA.read (L : Layout) (s : SoA) (h : Heap) (Index i : Nat) : Except Err (List Nat) :=
  h.load (SoA.get L s Index i) (L.sizeofNth Index)

/-- `SoA::allocate(size)`. -/
def SoA.allocate (L : Layout) (size : Nat) (s : SoA) (h : Heap) : Except Err (SoA × Heap) :=
  let size := if size = 0 then 32 else size
  if ¬ (size > s.m_size) then .error .assert
  else if s.m_allocator = 0 then .error .assert
  else
    let old_size := s.m_size
    let old_data := s.m_data
    let bytes := (size * L.tupleSize) % sizeMod
    let r := Mallocator.allocate h bytes
    let s1 : SoA := { s with m_data := r.1, m_size := size }
    if old_data ≠ 0 then
      match static_for 0 L.kNumArrays (fun i h1 =>
          let new_array := SoA.get_array L i s1.m_data s1.m_size
          let old_array := SoA.get_array L i old_data old_size
          let bytes := (s1.m_n * L.sizeofNth i) % sizeMod
          memcpy h1 new_array old_array bytes) r.2 with
      | .error e => .error e
      | .ok h2 =>
        match Mallocator.deallocate h2 old_data with
        | .error e => .error e
        | .ok h3 => .ok (s1, h3)
    else .ok (s1, r.2)

/-- `SoA::add(args...)`: the index of the new element, and the new state. -/
def SoA.add (L : Layout) (args : List (List Nat)) (s : SoA) (h : Heap) :
    Except Err (Nat × SoA × Heap) :=
  match (if s.m_n = s.m_size then SoA.allocate L ((s.m_size * 2) % sizeMod) s h
         else .ok (s, h)) with
  | .error e => .error e
  | .ok (s1, h1) =>
    let next := s1.m_n
    match static_for 0 L.kNumArrays (fun i h2 =>
        h2.store (SoA.get L s1 i next) (args.getD i [])) h1 with
    | .error e => .error e
    | .ok h3 => .ok (next, { s1 with m_n := (s1.m_n + 1) % sizeMod }, h3)

/-- `SoA::remove(index)`. -/
def SoA.remove (L : Layout) (index : Nat) (s : SoA) (h : Heap) : Except Err (SoA × Heap) :=
  if ¬ (index < s.m_n) then .error .assert
  else
    let last := s.m_n - 1
    let array0 := SoA.get_array L 0 s.m_data s.m_size
    match h.load ⟨array0.base, array0.off + index * L.sizeofNth 0⟩ (L.sizeofNth 0) with
    | .error e => .error e
    | .ok _key =>
      match h.load ⟨array0.base, array0.off + last * L.sizeofNth 0⟩ (L.sizeofNth 0) with
      | .error e => .error e
      | .ok _last_key =>
        match static_for 0 L.kNumArrays (fun i h1 =>
            match h1.load (SoA.get L s i last) (L.sizeofNth i) with
            | .error e => .error e
            | .ok v => h1.store (SoA.get L s i index) v) h with
        | .error e => .error e
        | .ok h2 => .ok (s, h2)

/-- The destructor `~SoA()`: the heap (and its log) after it ran. -/
def SoA.destroy (L : Layout) (s : SoA) (h : Heap) : Except Err Heap :=
  if s.m_size > 0 then
    match static_for_loop (fun i h1 =>
        static_for 0 L.kNumArrays (fun array_i h2 =>
          .ok { h2 with log := h2.log ++ [Event.dtor array_i i] }) h1) s.m_size 0 h with
    | .error e => .error e
    | .ok h3 =>
      if s.m_allocator = 0 then .error .ub
      else Mallocator.deallocate h3 s.m_data
  else .ok h

/-! ## Iteration -/

/-- `SoA::iterator`. -/
structure iterator where
  i : Nat
  deriving DecidableEq, Repr

/-- `iterator::operator++`. -/
def iterator.incr (it : iterator) : iterator := ⟨(it.i + 1) % sizeMod⟩

/-- `iterator::operator!=`. -/
def iterator.ne (it other : iterator) : Bool := it.i != other.i

/-- `iterator::operator*`. -/
def iterator.deref (it : iterator) : Nat := it.i

/-- `SoA::begin()`. -/
def SoA.begin (_s : SoA) : iterator := ⟨0⟩

/-- `SoA::end()`. -/
def SoA.end_ (s : SoA) : iterator := ⟨s.m_n⟩

/-- The loop `for (it = first; it != last; ++it) yield *it`, at most `fuel`
increments: the values yielded and the number of increments, `none` when the
fuel runs out before `it` equals `last`. -/
def iterLoop : Nat → iterator → iterator → Option (List Nat × Nat)
  | 0, it, last => if it.ne last then none else some ([], 0)
  | fuel + 1, it, last =>
    if it.ne last then
      match iterLoop fuel it.incr last with
      | none => none
      | some (vs, steps) => some (it.deref :: vs, steps + 1)
    else some ([], 0)

/-- The range-based `for (size_t n : container)` of `main.cpp`. -/
def SoA.iterate (s : SoA) (fuel : Nat) : Option (List Nat × Nat) :=
  iterLoop fuel s.begin s.end_

/-! ## Specification vocabulary -/

/-- Bytes occupied by one slot of each of the first `i` fields. -/
def Layout.sizeBefore (L : Layout) (i : Nat) : Nat := (L.sizes.take i).sum

/-- Two heaps with the same allocator state and the same live blocks of the
same sizes; only block contents may differ. -/
def SameShape (h h1 : Heap) : Prop :=
  h1.limit = h.limit ∧ h1.next = h.next ∧ h1.junk = h.junk ∧ h1.log = h.log ∧
    ∀ q, (h1.blocks q).map Block.size = (h.blocks q).map Block.size

/-- A consistent heap: `nullptr` is never handed out, `malloc` cannot serve more
than `size_t` can express, and blocks not yet handed out are not live. -/
def Heap.WF (h : Heap) : Prop :=
  0 < h.next ∧ h.limit < sizeMod ∧ ∀ p, h.next ≤ p → h.blocks p = none

/-- The assumption on `sizeof(std::tuple<Elements...>)`, which the library
header fixes and `SoA.h` only uses: it is positive and at least the sum of the
sizes of the fields (as for every tuple of scalar fields). -/
def Layout.WF (L : Layout) : Prop :=
  0 < L.tupleSize ∧ L.sizes.sum ≤ L.tupleSize

/-- An argument tuple of `add`: one value per field, each of its field's size. -/
def WellTyped (L : Layout) (args : List (List Nat)) : Prop :=
  args.map List.length = L.sizes

instance (L : Layout) (args : List (List Nat)) : Decidable (WellTyped L args) :=
  inferInstanceAs (Decidable (args.map List.length = L.sizes))

/-- The representation invariant: an allocator is bound, `length <= capacity`,
and the storage block, when there is one, is live and holds `capacity` slots
of every field; without a block the capacity is `0`. -/
def Inv (L : Layout) (s : SoA) (h : Heap) : Prop :=
  h.WF ∧ s.m_allocator ≠ 0 ∧ s.m_n ≤ s.m_size ∧ s.m_size < sizeMod ∧
    (s.m_data = 0 → s.m_size = 0) ∧
    (s.m_data ≠ 0 → ∃ b, h.blocks s.m_data = some b ∧ s.m_size * L.sizes.sum ≤ b.size)

/-- The capacity `add` asks for when the container is full: `m_size * 2`,
which `allocate` replaces by 32 when it is 0. -/
def growCap (c : Nat) : Nat := if c = 0 then 32 else 2 * c

/-- A run of `add` calls, one per argument tuple. -/
def runAdds (L : Layout) : List (List (List Nat)) → SoA → Heap → Except Err (SoA × Heap)
  | [], s, h => .ok (s, h)
  | args :: rest, s, h =>
    match SoA.add L args s h with
    | .error e => .error e
    | .ok (_, s1, h1) => runAdds L rest s1 h1

/-- A call on the container. -/
inductive Op where
  | allocate (size : Nat)
  | add (args : List (List Nat))
  | remove (index : Nat)

/-- One call. -/
def Op.step (L : Layout) (op : Op) (s : SoA) (h : Heap) : Except Err (SoA × Heap) :=
  match op with
  | .allocate size => SoA.allocate L size s h
  | .add args =>
    match SoA.add L args s h with
    | .error e => .error e
    | .ok (_, s1, h1) => .ok (s1, h1)
  | .remove index => SoA.remove L index s h

/-- A run of calls. -/
def runOps (L : Layout) : List Op → SoA → Heap → Except Err (SoA × Heap)
  | [], s, h => .ok (s, h)
  | op :: rest, s, h =>
    match op.step L s h with
    | .error e => .error e
    | .ok (s1, h1) => runOps L rest s1 h1

/-- The state a run ended in, the given state when it failed. -/
def stateOf (d : SoA × Heap) : Except Err (SoA × Heap) → SoA × Heap
  | .ok r => r
  | .error _ => d

/-- The sizes requested from the allocator, in call order. -/
def allocBytes (log : List Event) : List Nat :=
  log.filterMap fun e =>
    match e with
    | .alloc bytes _ => some bytes
    | _ => none

/-- What `g` growths of a container filled by `add` alone look like: the
requests were for 32, 64, ... slots of `T` bytes, the capacity is the last of
them, and the length is above the capacity before it. -/
def GrowthInv (T : Nat) (base : List Nat) (s : SoA) (h : Heap) (g : Nat) : Prop :=
  allocBytes h.log = base ++ (List.range g).map (fun t => 32 * 2 ^ t * T) ∧
    ((g = 0 ∧ s.m_size = 0 ∧ s.m_n = 0) ∨
      (1 ≤ g ∧ s.m_size = 32 * 2 ^ (g - 1) ∧ 1 ≤ s.m_n ∧ (2 ≤ g → 32 * 2 ^ (g - 2) < s.m_n)))

/-- The capacity `c` is the smallest one of the form `32 * 2 ^ j` that holds
`k` elements. -/
def SmallestCap (c k : Nat) : Prop :=
  ∃ j, c = 32 * 2 ^ j ∧ k ≤ c ∧ ∀ j1, k ≤ 32 * 2 ^ j1 → c ≤ 32 * 2 ^ j1

/-- The destructor calls of a log, as (field, index) pairs in call order. -/
def dtorCalls (log : List Event) : List (Nat × Nat) :=
  log.filterMap fun e =>
    match e with
    | .dtor field idx => some (field, idx)
    | _ => none

/-- The destructor calls `~SoA()` makes for the indices below `n` of a
container of `k` fields: index by index, the fields in declaration order. -/
def dtorEvents (k n : Nat) : List Event :=
  (List.range n).flatMap fun i => (List.range k).map fun array_i => Event.dtor array_i i

/-! ## The program of `main.cpp` -/

/-- Object representation of the unsigned number `n` in `w` bytes, least
significant byte first. -/
def bytesOf (w n : Nat) : List Nat := (List.range w).map fun k => (n / 256 ^ k) % 256

/-- The field list of `SoA<int64_t, const char*, int>` on a 64-bit target. -/
def mainLayout : Layout := ⟨[8, 8, 4], 24⟩

/-- An argument tuple of `people.add`: the id, the address of the name's
string literal, the age. -/
def person (id name age : Nat) : List (List Nat) := [bytesOf 8 id, bytesOf 8 name, bytesOf 4 age]

/-- Addresses standing for the string literals of `main.cpp`. -/
def strGandalf : Nat := 4198400
def strFrodo : Nat := 4198408
def strSamwise : Nat := 4198414

/-- The three `people.add` calls of `main`. -/
def people : List (List (List Nat)) :=
  [person 0 strGandalf 2019, person 1 strFrodo 33, person 2 strSamwise 61]

/-- A `Mallocator` with nothing allocated yet; fresh memory reads `0xAA`. -/
def heap0 : Heap :=
  { limit := 1099511627776, next := 1, junk := fun _ _ => 170, blocks := fun _ => none, log := [] }

/-- The container of `main` after its three `add` calls. -/
def peopleState : SoA × Heap :=
  stateOf (SoA.new 1, heap0) (runAdds mainLayout people (SoA.new 1) heap0)

/-- A one-byte, one-field container whose capacity was set to 5 by an explicit
`allocate(5)` and which was then filled by five `add` calls. -/
def filledState : SoA × Heap :=
  stateOf (SoA.new 1, heap0)
    (runOps ⟨[1], 1⟩
      [.allocate 5, .add [[10]], .add [[11]], .add [[12]], .add [[13]], .add [[14]]]
      (SoA.new 1) heap0)

/-- A container after `allocate(5)`, one `add` and `remove(0)`. -/
def mixedState : SoA × Heap :=
  stateOf (SoA.new 1, heap0)
    (runOps mainLayout [.allocate 5, .add (person 0 strGandalf 2019), .remove 0]
      (SoA.new 1) heap0)

/-- A new container of `main`'s field list after an explicit `allocate(5)`. -/
def reservedState : SoA × Heap :=
  stateOf (SoA.new 1, heap0) (runOps mainLayout [.allocate 5] (SoA.new 1) heap0)

/-- A `Mallocator` that cannot serve more than 100 bytes. -/
def smallHeap : Heap := { heap0 with limit := 100 }

/-- The blocks the allocator handed out, in call order. -/
def allocPtrs (log : List Event) : List Nat :=
  log.filterMap fun e =>
    match e with
    | .alloc _ ptr => some ptr
    | _ => none

/-- The blocks passed to `deallocate`, in call order. -/
def deallocs (log : List Event) : List Nat :=
  log.filterMap fun e =>
    match e with
    | .dealloc ptr => some ptr
    | _ => none

/-- The container is the only client of an allocator that serves every
request: it holds a block exactly when its capacity is not 0, that block is
the only live one, and every other block that was handed out has been passed
to `deallocate` once, the held one never. -/
def Owns (s : SoA) (h : Heap) : Prop :=
  0 < h.next ∧ sizeMod - 1 ≤ h.limit ∧
    (s.m_data = 0 ↔ s.m_size = 0) ∧ (s.m_size ≠ 0 → s.m_allocator ≠ 0) ∧
    s.m_data < h.next ∧
    (∀ p, (h.blocks p).isSome ↔ (p = s.m_data ∧ s.m_data ≠ 0)) ∧
    (∀ p ∈ allocPtrs h.log, p ≠ 0 ∧ p < h.next) ∧
    (∀ p ∈ deallocs h.log, p < h.next) ∧
    (∀ p ∈ allocPtrs h.log, (deallocs h.log).count p = if p = s.m_data then 0 else 1) ∧
    (s.m_data ≠ 0 → s.m_data ∈ allocPtrs h.log)

/-- An allocator test double: nothing allocated yet, every request is served. -/
def testHeap : Heap :=
  { limit := 18446744073709551615, next := 1, junk := fun _ _ => 0, blocks := fun _ => none,
    log := [] }

/-- The scenario of the specification on the test double: three `add` calls,
then `remove(0)`. -/
def scenarioState : SoA × Heap :=
  stateOf (SoA.new 1, testHeap)
    (runOps mainLayout
      [.add (person 0 strGandalf 2019), .add (person 1 strFrodo 33),
        .add (person 2 strSamwise 61), .remove 0] (SoA.new 1) testHeap)

/-! ## Layout arithmetic -/

theorem sizeMod_eq : sizeMod = 18446744073709551616 := rfl

theorem sizeBefore_zero (L : Layout) : L.sizeBefore 0 = 0 := by
  simp [Layout.sizeBefore]

theorem sizeBefore_succ (L : Layout) (i : Nat) :
    L.sizeBefore (i + 1) = L.sizeBefore i + L.sizeofNth i := by
  unfold Layout.sizeBefore Layout.sizeofNth
  by_cases hi : i < L.sizes.length
  · rw [List.sum_take_succ _ _ hi]
    simp [List.getD_eq_getElem?_getD, List.getElem?_eq_getElem hi]
  · have hle : L.sizes.length ≤ i := Nat.le_of_not_lt hi
    rw [List.take_of_length_le hle, List.take_of_length_le (Nat.le_succ_of_le hle)]
    simp [List.getD_eq_getElem?_getD, List.getElem?_eq_none hle]

theorem sizeBefore_mono (L : Layout) {i j : Nat} (hij : i ≤ j) :
    L.sizeBefore i ≤ L.sizeBefore j := by
  induction j with
  | zero => simp [Nat.le_zero.mp hij]
  | succ j ih =>
    rcases Nat.lt_or_ge i (j + 1) with hlt | hge
    · have := ih (Nat.lt_succ_iff.mp hlt)
      rw [sizeBefore_succ]; omega
    · have : i = j + 1 := Nat.le_antisymm hij hge
      simp [this]

theorem sizeBefore_length (L : Layout) : L.sizeBefore L.kNumArrays = L.sizes.sum := by
  simp [Layout.sizeBefore, Layout.kNumArrays]

theorem sizeBefore_le_sum (L : Layout) (i : Nat) : L.sizeBefore i ≤ L.sizes.sum := by
  rcases Nat.le_total i L.kNumArrays with hle | hge
  · rw [← sizeBefore_length]; exact sizeBefore_mono L hle
  · unfold Layout.sizeBefore
    rw [List.take_of_length_le hge]

theorem get_array_base (L : Layout) (i data size : Nat) :
    (SoA.get_array L i data size).base = data := by
  induction i with
  | zero => rfl
  | succ i ih => simp [SoA.get_array, ih]

theorem get_array_off (L : Layout) (i data size : Nat) :
    (SoA.get_array L i data size).off = size * L.sizeBefore i := by
  induction i with
  | zero => simp [SoA.get_array, sizeBefore_zero]
  | succ i ih => simp [SoA.get_array, ih, sizeBefore_succ, Nat.mul_add]

theorem get_array_eq (L : Layout) (i data size : Nat) :
    SoA.get_array L i data size = ⟨data, size * L.sizeBefore i⟩ := by
  have h1 := get_array_base L i data size
  have h2 := get_array_off L i data size
  cases hp : SoA.get_array L i data size
  simp_all

theorem get_eq (L : Layout) (s : SoA) (i a : Nat) :
    SoA.get L s i a = ⟨s.m_data, s.m_size * L.sizeBefore i + a * L.sizeofNth i⟩ := by
  simp [SoA.get, get_array_eq]

/-- A slot of field `i` below `n` ends before sub-array `i + 1` starts. -/
theorem cell_end_le (L : Layout) (n i a : Nat) (ha : a < n) :
    n * L.sizeBefore i + a * L.sizeofNth i + L.sizeofNth i ≤ n * L.sizeBefore (i + 1) := by
  rw [sizeBefore_succ, Nat.mul_add]
  have : (a + 1) * L.sizeofNth i ≤ n * L.sizeofNth i := Nat.mul_le_mul_right _ ha
  rw [Nat.add_mul] at this
  omega

theorem cell_end_le_total (L : Layout) (n i a : Nat) (ha : a < n) :
    n * L.sizeBefore i + a * L.sizeofNth i + L.sizeofNth i ≤ n * L.sizes.sum := by
  have h1 := cell_end_le L n i a ha
  have h2 : n * L.sizeBefore (i + 1) ≤ n * L.sizes.sum :=
    Nat.mul_le_mul_left _ (sizeBefore_le_sum L (i + 1))
  omega

/-- Distinct slots occupy disjoint byte ranges. -/
theorem cell_disjoint (L : Layout) (n i a j b : Nat) (ha : a < n) (hb : b < n)
    (hne : i ≠ j ∨ a ≠ b) :
    n * L.sizeBefore i + a * L.sizeofNth i + L.sizeofNth i ≤
        n * L.sizeBefore j + b * L.sizeofNth j ∨
      n * L.sizeBefore j + b * L.sizeofNth j + L.sizeofNth j ≤
        n * L.sizeBefore i + a * L.sizeofNth i := by
  rcases Nat.lt_trichotomy i j with hij | hij | hij
  · left
    have h1 := cell_end_le L n i a ha
    have h2 : n * L.sizeBefore (i + 1) ≤ n * L.sizeBefore j :=
      Nat.mul_le_mul_left _ (sizeBefore_mono L hij)
    omega
  · subst hij
    have hab : a ≠ b := by
      rcases hne with h | h
      · exact absurd rfl h
      · exact h
    rcases Nat.lt_or_gt_of_ne hab with hlt | hgt
    · left
      have : (a + 1) * L.sizeofNth i ≤ b * L.sizeofNth i := Nat.mul_le_mul_right _ hlt
      rw [Nat.add_mul] at this
      omega
    · right
      have : (b + 1) * L.sizeofNth i ≤ a * L.sizeofNth i := Nat.mul_le_mul_right _ hgt
      rw [Nat.add_mul] at this
      omega
  · right
    have h1 := cell_end_le L n j b hb
    have h2 : n * L.sizeBefore (j + 1) ≤ n * L.sizeBefore i :=
      Nat.mul_le_mul_left _ (sizeBefore_mono L hij)
    omega

/-! ## Loads and stores -/

theorem SameShape.refl (h : Heap) : SameShape h h :=
  ⟨rfl, rfl, rfl, rfl, fun _ => rfl⟩

theorem SameShape.trans {h1 h2 h3 : Heap} (a : SameShape h1 h2) (b : SameShape h2 h3) :
    SameShape h1 h3 := by
  obtain ⟨a1, a2, a3, a4, a5⟩ := a
  obtain ⟨b1, b2, b3, b4, b5⟩ := b
  exact ⟨b1.trans a1, b2.trans a2, b3.trans a3, b4.trans a4, fun q => (b5 q).trans (a5 q)⟩

/-- In a heap of the same shape a live block is still live, with its size. -/
theorem SameShape.block {h h1 : Heap} (hs : SameShape h h1) {p : Nat} {b : Block}
    (hb : h.blocks p = some b) : ∃ b1, h1.blocks p = some b1 ∧ b1.size = b.size := by
  have h5 := hs.2.2.2.2 p
  rw [hb] at h5
  cases hb1 : h1.blocks p with
  | none => rw [hb1] at h5; simp at h5
  | some b1 =>
    rw [hb1] at h5
    simp at h5
    exact ⟨b1, rfl, h5⟩

/-- What a successful store did. -/
theorem store_inv {h h1 : Heap} {p : Ptr} {v : List Nat} (hst : h.store p v = .ok h1) :
    ∃ b, p.base ≠ 0 ∧ h.blocks p.base = some b ∧ p.off + v.length ≤ b.size ∧
      h1 = { h with
             blocks := fun q =>
               if q = p.base then some ⟨b.size, writeMem b.mem p.off v⟩ else h.blocks q } := by
  unfold Heap.store at hst
  by_cases h0 : p.base = 0
  · simp [h0] at hst
  · cases hb : h.blocks p.base with
    | none => simp [h0, hb] at hst
    | some b =>
      by_cases hin : p.off + v.length ≤ b.size
      · simp [h0, hb, hin] at hst
        exact ⟨b, h0, rfl, hin, hst.symm⟩
      · simp [h0, hb, hin] at hst

/-- A store into a live block within its bounds succeeds. -/
theorem store_ok (h : Heap) (p : Ptr) (v : List Nat) (b : Block) (h0 : p.base ≠ 0)
    (hb : h.blocks p.base = some b) (hin : p.off + v.length ≤ b.size) :
    ∃ h1, h.store p v = .ok h1 := by
  unfold Heap.store
  simp [h0, hb, hin]

theorem store_sameShape {h h1 : Heap} {p : Ptr} {v : List Nat} (hst : h.store p v = .ok h1) :
    SameShape h h1 := by
  obtain ⟨b, _, hb, _, rfl⟩ := store_inv hst
  refine ⟨rfl, rfl, rfl, rfl, fun q => ?_⟩
  by_cases hq : q = p.base
  · subst hq; simp [hb]
  · simp [hq]

/-- A load sees exactly the bytes that were just stored there. -/
theorem load_store_same {h h1 : Heap} {p : Ptr} {v : List Nat} (hst : h.store p v = .ok h1) :
    h1.load p v.length = .ok v := by
  obtain ⟨b, h0, hb, hin, rfl⟩ := store_inv hst
  unfold Heap.load
  simp only [h0, if_false, if_true, hin]
  congr 1
  apply List.ext_getElem
  · simp
  · intro k hk1 hk2
    simp at hk1
    simp [writeMem, hk1, List.getD_eq_getElem?_getD, List.getElem?_eq_getElem hk2]

/-- A store leaves every disjoint range, and every other block, as it was. -/
theorem load_store_other {h h1 : Heap} {p : Ptr} {v : List Nat} (hst : h.store p v = .ok h1)
    (q : Ptr) (n : Nat)
    (hd : q.base ≠ p.base ∨ q.off + n ≤ p.off ∨ p.off + v.length ≤ q.off) :
    h1.load q n = h.load q n := by
  obtain ⟨b, h0, hb, hin, rfl⟩ := store_inv hst
  unfold Heap.load
  by_cases hq0 : q.base = 0
  · simp [hq0]
  · by_cases hqp : q.base = p.base
    · have hd2 : q.off + n ≤ p.off ∨ p.off + v.length ≤ q.off := by
        rcases hd with hd | hd
        · exact absurd hqp hd
        · exact hd
      simp only [hqp, h0, if_false, if_true, hb]
      by_cases hqin : q.off + n ≤ b.size
      · simp only [hqin, if_true]
        refine congrArg Except.ok ?_
        apply List.map_congr_left
        intro k hk
        have hk2 : k < n := List.mem_range.mp hk
        have : ¬ (p.off ≤ q.off + k ∧ q.off + k < p.off + v.length) := by omega
        simp [writeMem, this]
      · simp [hqin]
    · simp [hq0, hqp]

/-- What a successful load read. -/
theorem load_inv {h : Heap} {p : Ptr} {n : Nat} {v : List Nat} (hl : h.load p n = .ok v) :
    ∃ b, p.base ≠ 0 ∧ h.blocks p.base = some b ∧ p.off + n ≤ b.size ∧
      v = (List.range n).map fun k => b.mem (p.off + k) := by
  unfold Heap.load at hl
  by_cases h0 : p.base = 0
  · simp [h0] at hl
  · cases hb : h.blocks p.base with
    | none => simp [h0, hb] at hl
    | some b =>
      by_cases hin : p.off + n ≤ b.size
      · simp [h0, hb, hin] at hl
        exact ⟨b, h0, rfl, hin, hl.symm⟩
      · simp [h0, hb, hin] at hl

/-- A load from a live block within its bounds succeeds and reads `n` bytes. -/
theorem load_ok (h : Heap) (p : Ptr) (n : Nat) (b : Block) (h0 : p.base ≠ 0)
    (hb : h.blocks p.base = some b) (hin : p.off + n ≤ b.size) :
    ∃ v, h.load p n = .ok v ∧ v.length = n := by
  unfold Heap.load
  simp [h0, hb, hin]

theorem load_length {h : Heap} {p : Ptr} {n : Nat} {v : List Nat} (hl : h.load p n = .ok v) :
    v.length = n := by
  obtain ⟨b, _, _, _, rfl⟩ := load_inv hl
  simp

/-- A part of a loaded range is the corresponding part of what was loaded. -/
theorem load_sub {h : Heap} {p : Ptr} {n : Nat} {v : List Nat} (hl : h.load p n = .ok v)
    (d l : Nat) (hdl : d + l ≤ n) :
    h.load ⟨p.base, p.off + d⟩ l = .ok ((v.drop d).take l) := by
  obtain ⟨b, h0, hb, hin, rfl⟩ := load_inv hl
  unfold Heap.load
  have hin2 : p.off + d + l ≤ b.size := by omega
  simp only [h0, if_false, hb, hin2, if_true]
  congr 1
  apply List.ext_getElem
  · simp; omega
  · intro k hk1 hk2
    simp at hk1
    simp [Nat.add_assoc]

/-- After `memcpy` every part of the destination range holds what the
corresponding part of the source range held. -/
theorem memcpy_sub {h h1 : Heap} {dst src : Ptr} {n : Nat}
    (hm : memcpy h dst src n = .ok h1) (d l : Nat) (hdl : d + l ≤ n) :
    h1.load ⟨dst.base, dst.off + d⟩ l = h.load ⟨src.base, src.off + d⟩ l := by
  unfold memcpy at hm
  cases hl : h.load src n with
  | error e => simp [hl] at hm
  | ok v =>
    simp only [hl] at hm
    have hlen := load_length hl
    have h1l := load_store_same hm
    rw [hlen] at h1l
    rw [load_sub h1l d l hdl, load_sub hl d l hdl]

theorem memcpy_sameShape {h h1 : Heap} {dst src : Ptr} {n : Nat}
    (hm : memcpy h dst src n = .ok h1) : SameShape h h1 := by
  unfold memcpy at hm
  cases hl : h.load src n with
  | error e => simp [hl] at hm
  | ok v =>
    simp only [hl] at hm
    exact store_sameShape hm

theorem memcpy_other {h h1 : Heap} {dst src : Ptr} {n : Nat}
    (hm : memcpy h dst src n = .ok h1) (q : Ptr) (m : Nat)
    (hd : q.base ≠ dst.base ∨ q.off + m ≤ dst.off ∨ dst.off + n ≤ q.off) :
    h1.load q m = h.load q m := by
  unfold memcpy at hm
  cases hl : h.load src n with
  | error e => simp [hl] at hm
  | ok v =>
    simp only [hl] at hm
    have hlen := load_length hl
    exact load_store_other hm q m (by rw [hlen]; exact hd)

theorem memcpy_ok (h : Heap) (dst src : Ptr) (n : Nat) (bs bd : Block)
    (hs0 : src.base ≠ 0) (hsb : h.blocks src.base = some bs) (hsin : src.off + n ≤ bs.size)
    (hd0 : dst.base ≠ 0) (hdb : h.blocks dst.base = some bd) (hdin : dst.off + n ≤ bd.size) :
    ∃ h1, memcpy h dst src n = .ok h1 := by
  obtain ⟨v, hv, hlen⟩ := load_ok h src n bs hs0 hsb hsin
  unfold memcpy
  simp only [hv]
  exact store_ok h dst v bd hd0 hdb (by rw [hlen]; exact hdin)

/-! ## Loops -/

/-- Total-correctness rule for `static_for_loop`: an invariant that every call
of the body re-establishes holds at the end, and the loop does not fail. -/
theorem static_for_loop_rule {σ : Type} (f : Nat → σ → Except Err σ) (P : Nat → σ → Prop)
    (n First : Nat) (st : σ) (h0 : P First st)
    (hstep : ∀ i st1, First ≤ i → i < First + n → P i st1 →
      ∃ st2, f i st1 = .ok st2 ∧ P (i + 1) st2) :
    ∃ st3, static_for_loop f n First st = .ok st3 ∧ P (First + n) st3 := by
  induction n generalizing First st with
  | zero => exact ⟨st, rfl, h0⟩
  | succ n ih =>
    obtain ⟨st2, hf, hP⟩ := hstep First st (Nat.le_refl _) (by omega) h0
    obtain ⟨st3, hl, hP3⟩ := ih (First + 1) st2 hP (fun i st1 hi1 hi2 hPi =>
      hstep i st1 (by omega) (by omega) hPi)
    refine ⟨st3, ?_, ?_⟩
    · simp [static_for_loop, hf, hl]
    · have : First + 1 + n = First + (n + 1) := by omega
      rw [← this]; exact hP3

theorem static_for_rule {σ : Type} (f : Nat → σ → Except Err σ) (P : Nat → σ → Prop)
    (Last : Nat) (st : σ) (h0 : P 0 st)
    (hstep : ∀ i st1, i < Last → P i st1 → ∃ st2, f i st1 = .ok st2 ∧ P (i + 1) st2) :
    ∃ st3, static_for 0 Last f st = .ok st3 ∧ P Last st3 := by
  have := static_for_loop_rule f P Last 0 st h0 (fun i st1 _ hi hP =>
    hstep i st1 (by omega) hP)
  simpa [static_for] using this

/-! ## `allocate` -/

theorem load_congr_block {h h1 : Heap} (q : Ptr) (n : Nat)
    (hb : h1.blocks q.base = h.blocks q.base) : h1.load q n = h.load q n := by
  unfold Heap.load
  rw [hb]

theorem map_size_none {o : Option Block} (h : o.map Block.size = none) : o = none := by
  cases o <;> simp_all

theorem allocate_zero (L : Layout) (s : SoA) (h : Heap) :
    SoA.allocate L 0 s h = SoA.allocate L 32 s h := by
  simp [SoA.allocate]

/-- `allocate` on a consistent container, asked for more than the capacity
and served by the allocator: the new state, the preserved values, the log. -/
theorem allocate_spec (L : Layout) (s : SoA) (h : Heap) (size : Nat) (hL : L.WF)
    (hinv : Inv L s h) (hsz : s.m_size < size) (hfit : size * L.tupleSize ≤ h.limit) :
    ∃ h1, SoA.allocate L size s h = .ok ({ s with m_data := h.next, m_size := size }, h1) ∧
      Inv L { s with m_data := h.next, m_size := size } h1 ∧
      (∀ i a, i < L.kNumArrays → a < s.m_n →
        SoA.read L { s with m_data := h.next, m_size := size } h1 i a = SoA.read L s h i a) ∧
      h1.limit = h.limit ∧ h1.next = h.next + 1 ∧ h1.junk = h.junk ∧
      h1.log = h.log ++ Event.alloc (size * L.tupleSize) h.next ::
        (if s.m_data = 0 then [] else [Event.dealloc s.m_data]) ∧
      (∀ q, q ≠ h.next → q ≠ s.m_data →
        (h1.blocks q).map Block.size = (h.blocks q).map Block.size) ∧
      (s.m_data ≠ 0 → h1.blocks s.m_data = none) := by
  obtain ⟨⟨hnext, hlim, hfresh⟩, halloc, hn, hsize, hnull, hblk⟩ := hinv
  obtain ⟨htp, hsum⟩ := hL
  have hsize0 : size ≠ 0 := by omega
  have hle1 : size ≤ size * L.tupleSize := Nat.le_mul_of_pos_right _ htp
  have hbytes : size * L.tupleSize % sizeMod = size * L.tupleSize :=
    Nat.mod_eq_of_lt (by omega)
  have hsumle : size * L.sizes.sum ≤ size * L.tupleSize := Nat.mul_le_mul_left _ hsum
  -- the heap after `malloc`
  obtain ⟨hA, hAdef⟩ : ∃ hA : Heap, hA =
      { h with
        next := h.next + 1
        blocks := fun p =>
          if p = h.next then some ⟨size * L.tupleSize, h.junk h.next⟩ else h.blocks p
        log := h.log ++ [Event.alloc (size * L.tupleSize) h.next] } := ⟨_, rfl⟩
  have hmalloc : Mallocator.allocate h (size * L.tupleSize) = (h.next, hA) := by
    simp [Mallocator.allocate, hfit, hAdef]
  have hAnew : hA.blocks h.next = some ⟨size * L.tupleSize, h.junk h.next⟩ := by
    simp [hAdef]
  have hAold : ∀ q, q ≠ h.next → hA.blocks q = h.blocks q := by
    intro q hq; simp [hAdef, hq]
  have hAfresh : ∀ p, h.next + 1 ≤ p → hA.blocks p = none := by
    intro p hp
    rw [hAold p (by omega)]
    exact hfresh p (by omega)
  by_cases hd : s.m_data = 0
  · -- no old block: nothing to copy
    have hm0 : s.m_size = 0 := hnull hd
    have hn0 : s.m_n = 0 := by omega
    refine ⟨hA, ?_, ?_, ?_, ?_, ?_, ?_, ?_, ?_, ?_⟩
    · simp [SoA.allocate, hsize0, hsz, halloc, hbytes, hmalloc, hd]
    · refine ⟨⟨by simp [hAdef], by simpa [hAdef] using hlim, by simpa [hAdef] using hAfresh⟩,
        halloc, by simp; omega, by simp; omega, ?_, ?_⟩
      · intro h0; simp at h0; omega
      · intro _
        exact ⟨_, hAnew, hsumle⟩
    · intro i a _ ha; omega
    · simp [hAdef]
    · simp [hAdef]
    · simp [hAdef]
    · simp [hAdef, hd]
    · intro q hq _; rw [hAold q hq]
    · intro h0; exact absurd hd h0
  · -- an old block: copy every sub-array, then release it
    obtain ⟨bo, hbo, hbosz⟩ := hblk hd
    have hdlt : s.m_data < h.next := by
      by_contra hge
      rw [hfresh s.m_data (by omega)] at hbo
      simp at hbo
    have hdne : s.m_data ≠ h.next := by omega
    have hAo : hA.blocks s.m_data = some bo := by rw [hAold _ hdne, hbo]
    -- the copy loop
    have hloop := static_for_rule (fun i h1 =>
        memcpy h1 (SoA.get_array L i h.next size) (SoA.get_array L i s.m_data s.m_size)
          ((s.m_n * L.sizeofNth i) % sizeMod))
      (fun i h2 => SameShape hA h2 ∧
        (∀ q n, q.base = s.m_data → h2.load q n = h.load q n) ∧
        (∀ j a, j < i → a < s.m_n →
          h2.load ⟨h.next, size * L.sizeBefore j + a * L.sizeofNth j⟩ (L.sizeofNth j) =
            h.load ⟨s.m_data, s.m_size * L.sizeBefore j + a * L.sizeofNth j⟩ (L.sizeofNth j)))
      L.kNumArrays hA
      ⟨SameShape.refl hA,
        fun q n hq => load_congr_block q n (by rw [hq]; exact hAold _ hdne),
        fun j a hj _ => absurd hj (Nat.not_lt_zero j)⟩
      (by
        intro i h2 _ ⟨hss, hold, hcopied⟩
        -- sizes of the ranges involved
        have hcnt_le : s.m_n * L.sizeofNth i ≤ s.m_size * L.sizeofNth i :=
          Nat.mul_le_mul_right _ hn
        have hsrc_end : s.m_size * L.sizeBefore i + s.m_n * L.sizeofNth i ≤ bo.size := by
          have h1 : s.m_size * L.sizeBefore (i + 1) ≤ s.m_size * L.sizes.sum :=
            Nat.mul_le_mul_left _ (sizeBefore_le_sum L (i + 1))
          rw [sizeBefore_succ, Nat.mul_add] at h1
          omega
        have hdst_end : size * L.sizeBefore i + s.m_n * L.sizeofNth i ≤ size * L.tupleSize := by
          have h1 : size * L.sizeBefore (i + 1) ≤ size * L.sizes.sum :=
            Nat.mul_le_mul_left _ (sizeBefore_le_sum L (i + 1))
          rw [sizeBefore_succ, Nat.mul_add] at h1
          have h2 : s.m_n * L.sizeofNth i ≤ size * L.sizeofNth i :=
            Nat.mul_le_mul_right _ (by omega)
          omega
        have hcnt : s.m_n * L.sizeofNth i % sizeMod = s.m_n * L.sizeofNth i :=
          Nat.mod_eq_of_lt (by omega)
        obtain ⟨b2o, hb2o, hb2osz⟩ := hss.block hAo
        obtain ⟨b2n, hb2n, hb2nsz⟩ := hss.block hAnew
        simp only [get_array_eq, hcnt]
        obtain ⟨h3, hcp⟩ := memcpy_ok h2 ⟨h.next, size * L.sizeBefore i⟩
          ⟨s.m_data, s.m_size * L.sizeBefore i⟩ (s.m_n * L.sizeofNth i) b2o b2n
          hd hb2o (by simp [hb2osz]; exact hsrc_end)
          (by simp; omega) hb2n (by simp [hb2nsz]; exact hdst_end)
        refine ⟨h3, hcp, hss.trans (memcpy_sameShape hcp), ?_, ?_⟩
        · intro q n hq
          rw [memcpy_other hcp q n (Or.inl (by simp [hq]; exact hdne))]
          exact hold q n hq
        · intro j a hj ha
          rcases Nat.lt_succ_iff_lt_or_eq.mp hj with hlt | heq
          · rw [memcpy_other hcp _ _ (Or.inr (Or.inl ?_))]
            · exact hcopied j a hlt ha
            · have h1 := cell_end_le L size j a (by omega)
              have h2 : size * L.sizeBefore (j + 1) ≤ size * L.sizeBefore i :=
                Nat.mul_le_mul_left _ (sizeBefore_mono L hlt)
              simp; omega
          · subst heq
            have hsub := memcpy_sub hcp (a * L.sizeofNth j) (L.sizeofNth j) (by
              have : (a + 1) * L.sizeofNth j ≤ s.m_n * L.sizeofNth j :=
                Nat.mul_le_mul_right _ ha
              rw [Nat.add_mul] at this
              omega)
            simp only at hsub
            rw [hsub]
            exact hold _ _ rfl)
    obtain ⟨h2, hrun, hss, hold, hcopied⟩ := hloop
    obtain ⟨b2o, hb2o, hb2osz⟩ := hss.block hAo
    obtain ⟨b2n, hb2n, hb2nsz⟩ := hss.block hAnew
    obtain ⟨h3, h3def⟩ : ∃ h3 : Heap, h3 =
        { h2 with
          blocks := fun q => if q = s.m_data then none else h2.blocks q
          log := h2.log ++ [Event.dealloc s.m_data] } := ⟨_, rfl⟩
    have hfree : Mallocator.deallocate h2 s.m_data = .ok h3 := by
      simp [Mallocator.deallocate, hd, hb2o, h3def]
    have h3new : h3.blocks h.next = some b2n := by
      simp [h3def, Ne.symm hdne, hb2n]
    obtain ⟨hs1, hs2, hs3, hs4, hs5⟩ := hss
    refine ⟨h3, ?_, ?_, ?_, ?_, ?_, ?_, ?_, ?_, ?_⟩
    · simp [SoA.allocate, hsize0, hsz, halloc, hbytes, hmalloc, hd, hrun, hfree]
    · refine ⟨⟨by simp [h3def, hs2, hAdef], by simpa [h3def, hs1, hAdef] using hlim, ?_⟩,
        halloc, by simp; omega, by simp; omega, ?_, ?_⟩
      · intro p hp
        have hp2 : h.next + 1 ≤ p := by simpa [h3def, hs2, hAdef] using hp
        by_cases hpd : p = s.m_data
        · simp [h3def, hpd]
        · simp only [h3def, hpd, if_false]
          apply map_size_none
          rw [hs5 p, hAfresh p hp2]
          rfl
      · intro h0; simp at h0; omega
      · intro _
        exact ⟨b2n, h3new, by simp [hb2nsz]; exact hsumle⟩
    · intro i a hi ha
      have e1 : h3.load ⟨h.next, size * L.sizeBefore i + a * L.sizeofNth i⟩ (L.sizeofNth i) =
          h2.load ⟨h.next, size * L.sizeBefore i + a * L.sizeofNth i⟩ (L.sizeofNth i) :=
        load_congr_block _ _ (by simp [h3def, Ne.symm hdne])
      simp only [SoA.read, get_eq]
      rw [e1]
      exact hcopied i a hi ha
    · simp [h3def, hs1, hAdef]
    · simp [h3def, hs2, hAdef]
    · simp [h3def, hs3, hAdef]
    · simp [h3def, hs4, hAdef, hd]
    · intro q hq hqd
      simp only [h3def, hqd, if_false]
      rw [hs5 q, hAold q hq]
    · intro _; simp [h3def]

/-! ## `add` -/

theorem wellTyped_length {L : Layout} {args : List (List Nat)} (h : WellTyped L args)
    (i : Nat) : (args.getD i []).length = L.sizeofNth i := by
  unfold WellTyped at h
  unfold Layout.sizeofNth
  rw [← h]
  simp only [List.getD_eq_getElem?_getD, List.getElem?_map]
  cases args[i]? <;> simp

theorem SameShape.wf {h h1 : Heap} (hs : SameShape h h1) (hw : h.WF) : h1.WF := by
  obtain ⟨h1l, h1n, _, _, h1b⟩ := hs
  obtain ⟨a, b, c⟩ := hw
  refine ⟨by omega, by omega, fun p hp => ?_⟩
  apply map_size_none
  rw [h1b p, c p (by omega)]
  rfl

/-- The invariant does not depend on block contents. -/
theorem Inv.sameShape {L : Layout} {s : SoA} {h h1 : Heap} (hinv : Inv L s h)
    (hs : SameShape h h1) : Inv L s h1 := by
  obtain ⟨hw, a, b, c, d, e⟩ := hinv
  refine ⟨hs.wf hw, a, b, c, d, fun hd => ?_⟩
  obtain ⟨blk, hb, hsz⟩ := e hd
  obtain ⟨b1, hb1, hb1sz⟩ := hs.block hb
  exact ⟨b1, hb1, by omega⟩

/-- The stores of `add`: slot `next` receives the arguments, every other slot
keeps its value. -/
theorem add_stores (L : Layout) (s : SoA) (h : Heap) (args : List (List Nat)) (next : Nat)
    (hargs : WellTyped L args) (b : Block) (hd : s.m_data ≠ 0)
    (hb : h.blocks s.m_data = some b) (hbsz : s.m_size * L.sizes.sum ≤ b.size)
    (hnext : next < s.m_size) :
    ∃ h3, static_for 0 L.kNumArrays
        (fun i h2 => h2.store (SoA.get L s i next) (args.getD i [])) h = .ok h3 ∧
      SameShape h h3 ∧
      (∀ j, j < L.kNumArrays → SoA.read L s h3 j next = .ok (args.getD j [])) ∧
      (∀ j a, a < s.m_size → a ≠ next → SoA.read L s h3 j a = SoA.read L s h j a) := by
  apply static_for_rule _ (fun i h2 => SameShape h h2 ∧
      (∀ j, j < i → SoA.read L s h2 j next = .ok (args.getD j [])) ∧
      (∀ j a, a < s.m_size → a ≠ next → SoA.read L s h2 j a = SoA.read L s h j a))
  · exact ⟨SameShape.refl h, fun j hj => absurd hj (Nat.not_lt_zero j), fun _ _ _ _ => rfl⟩
  · intro i h2 _ ⟨hss, hwritten, hframe⟩
    obtain ⟨b2, hb2, hb2sz⟩ := hss.block hb
    have hlen := wellTyped_length hargs i
    have hend := cell_end_le_total L s.m_size i next hnext
    obtain ⟨h3, hst⟩ := store_ok h2 (SoA.get L s i next) (args.getD i []) b2
      (by simp only [get_eq]; exact hd) (by simp only [get_eq]; exact hb2)
      (by simp only [get_eq, hlen]; omega)
    refine ⟨h3, hst, hss.trans (store_sameShape hst), ?_, ?_⟩
    · intro j hj
      rcases Nat.lt_succ_iff_lt_or_eq.mp hj with hlt | heq
      · have hdis := cell_disjoint L s.m_size j next i next hnext hnext (Or.inl (by omega))
        unfold SoA.read
        rw [load_store_other hst _ _ (Or.inr (by simp only [get_eq, hlen]; omega))]
        exact hwritten j hlt
      · subst heq
        unfold SoA.read
        rw [← hlen]
        exact load_store_same hst
    · intro j a ha hne
      have hdis := cell_disjoint L s.m_size j a i next ha hnext (Or.inr hne)
      unfold SoA.read
      rw [load_store_other hst _ _ (Or.inr (by simp only [get_eq, hlen]; omega))]
      exact hframe j a ha hne

theorem read_congr_state (L : Layout) (s s1 : SoA) (h : Heap) (i a : Nat)
    (hd : s1.m_data = s.m_data) (hs : s1.m_size = s.m_size) :
    SoA.read L s1 h i a = SoA.read L s h i a := by
  simp [SoA.read, get_eq, hd, hs]

theorem growCap_pos (c : Nat) : c < growCap c := by
  unfold growCap
  split <;> omega

/-- `add` on a consistent container, with well-typed arguments and an
allocator that can serve the growth when one is needed. -/
theorem add_spec (L : Layout) (s : SoA) (h : Heap) (args : List (List Nat)) (hL : L.WF)
    (hinv : Inv L s h) (hargs : WellTyped L args)
    (hfit : s.m_n = s.m_size → growCap s.m_size * L.tupleSize ≤ h.limit) :
    ∃ s1 h1, SoA.add L args s h = .ok (s.m_n, s1, h1) ∧
      s1.m_n = s.m_n + 1 ∧
      s1.m_size = (if s.m_n = s.m_size then growCap s.m_size else s.m_size) ∧
      s1.m_allocator = s.m_allocator ∧
      Inv L s1 h1 ∧
      (∀ i, i < L.kNumArrays → SoA.read L s1 h1 i s.m_n = .ok (args.getD i [])) ∧
      (∀ i a, i < L.kNumArrays → a < s.m_n → SoA.read L s1 h1 i a = SoA.read L s h i a) ∧
      h1.limit = h.limit ∧ h1.junk = h.junk ∧
      h1.log = h.log ++ (if s.m_n = s.m_size then
        Event.alloc (growCap s.m_size * L.tupleSize) h.next ::
          (if s.m_data = 0 then [] else [Event.dealloc s.m_data]) else []) := by
  have hinv0 := hinv
  obtain ⟨hw, halloc, hn, hsize, hnull, hblk⟩ := hinv
  by_cases hfull : s.m_n = s.m_size
  · -- growth first
    have hfit2 := hfit hfull
    have hreq : SoA.allocate L ((s.m_size * 2) % sizeMod) s h =
        SoA.allocate L (growCap s.m_size) s h := by
      unfold growCap
      by_cases hz : s.m_size = 0
      · simp [hz, allocate_zero]
      · have h1 : 2 * s.m_size ≤ 2 * s.m_size * L.tupleSize :=
          Nat.le_mul_of_pos_right _ hL.1
        have h2 : growCap s.m_size = 2 * s.m_size := by simp [growCap, hz]
        rw [h2] at hfit2
        have h3 := hw.2.1
        have : s.m_size * 2 % sizeMod = 2 * s.m_size := by
          rw [Nat.mul_comm]; exact Nat.mod_eq_of_lt (by omega)
        simp [this, hz]
    obtain ⟨hA, hal, hinvA, hkeep, hAlim, _, hAjunk, hAlog, _, _⟩ :=
      allocate_spec L s h (growCap s.m_size) hL hinv0 (growCap_pos _) hfit2
    obtain ⟨hwA, _, _, hsizeA, _, hblkA⟩ := hinvA
    have hdA : h.next ≠ 0 := Nat.pos_iff_ne_zero.mp hw.1
    obtain ⟨bA, hbA, hbAsz⟩ := hblkA hdA
    have hlt : s.m_n < growCap s.m_size := by rw [hfull]; exact growCap_pos _
    obtain ⟨h3, hst, hss, hnew, hframe⟩ := add_stores L
      { s with m_data := h.next, m_size := growCap s.m_size } hA args s.m_n hargs bA hdA hbA
      hbAsz hlt
    have hwrap : (s.m_n + 1) % sizeMod = s.m_n + 1 := by
      simp only at hsizeA
      exact Nat.mod_eq_of_lt (by omega)
    refine ⟨{ s with m_data := h.next, m_size := growCap s.m_size, m_n := s.m_n + 1 }, h3,
      ?_, rfl, by simp [hfull], rfl, ?_, ?_, ?_, ?_, ?_, ?_⟩
    · unfold SoA.add
      rw [if_pos hfull, hreq, hal]
      simp only [hst, hwrap]
    · refine ⟨hss.wf hwA, halloc, ?_, hsizeA, ?_, ?_⟩
      · simp only; omega
      · intro h0; exact absurd h0 hdA
      · intro _
        obtain ⟨b3, hb3, hb3sz⟩ := hss.block hbA
        exact ⟨b3, hb3, by simp only at hbAsz ⊢; omega⟩
    · intro i hi
      exact hnew i hi
    · intro i a hi ha
      exact (hframe i a (by simp only; omega) (by omega)).trans (hkeep i a hi ha)
    · rw [hss.1, hAlim]
    · rw [hss.2.2.1, hAjunk]
    · rw [hss.2.2.2.1, hAlog]; simp [hfull]
  · -- spare capacity
    have hlt : s.m_n < s.m_size := by omega
    have hd : s.m_data ≠ 0 := fun h0 => by have := hnull h0; omega
    obtain ⟨b, hb, hbsz⟩ := hblk hd
    obtain ⟨h3, hst, hss, hnew, hframe⟩ := add_stores L s h args s.m_n hargs b hd hb hbsz hlt
    have hwrap : (s.m_n + 1) % sizeMod = s.m_n + 1 := Nat.mod_eq_of_lt (by omega)
    refine ⟨{ s with m_n := s.m_n + 1 }, h3, ?_, rfl, by simp [hfull], rfl, ?_, ?_, ?_, ?_, ?_, ?_⟩
    · unfold SoA.add
      rw [if_neg hfull]
      simp only [hst, hwrap]
    · have := hinv0.sameShape hss
      obtain ⟨a1, a2, a3, a4, a5, a6⟩ := this
      exact ⟨a1, a2, by simp only; omega, a4, a5, a6⟩
    · intro i hi
      exact hnew i hi
    · intro i a hi ha
      exact hframe i a (by omega) (by omega)
    · exact hss.1
    · exact hss.2.2.1
    · rw [hss.2.2.2.1]; simp [hfull]

/-! ## Runs of `add` -/

theorem new_inv (L : Layout) (allocator : Nat) (h0 : Heap) (hh0 : h0.WF)
    (halloc : allocator ≠ 0) : Inv L (SoA.new allocator) h0 :=
  ⟨hh0, halloc, Nat.le_refl _, by simp [SoA.new, sizeMod], fun _ => rfl,
    fun hd => absurd rfl hd⟩

/-- A run of `add` calls on a consistent container whose capacity is within
`2 * length + 32` succeeds when the allocator can serve the last growth. -/
theorem runAdds_spec (L : Layout) (hL : L.WF) (as : List (List (List Nat))) :
    ∀ (s : SoA) (h : Heap), Inv L s h → (∀ a ∈ as, WellTyped L a) →
      s.m_size ≤ 2 * s.m_n + 32 →
      (2 * (s.m_n + as.length) + 32) * L.tupleSize ≤ h.limit →
      ∃ s1 h1, runAdds L as s h = .ok (s1, h1) ∧ Inv L s1 h1 ∧
        s1.m_n = s.m_n + as.length ∧ s1.m_size ≤ 2 * s1.m_n + 32 ∧ h1.limit = h.limit ∧
        s1.m_allocator = s.m_allocator := by
  induction as with
  | nil =>
    intro s h hinv _ hcap _
    exact ⟨s, h, rfl, hinv, rfl, hcap, rfl, rfl⟩
  | cons a rest ih =>
    intro s h hinv hty hcap hfit
    have hlen : (a :: rest).length = rest.length + 1 := rfl
    rw [hlen] at hfit
    obtain ⟨s1, h1, hadd, hn1, hsz1, hal1, hinv1, _, _, hlim1, _, _⟩ :=
      add_spec L s h a hL hinv (hty a (List.mem_cons_self _ _)) (fun hfull => by
        have hgrow : growCap s.m_size ≤ 2 * s.m_n + 32 := by
          unfold growCap; split <;> omega
        have := Nat.mul_le_mul_right L.tupleSize hgrow
        have h2 : (2 * s.m_n + 32) * L.tupleSize ≤ (2 * (s.m_n + (rest.length + 1)) + 32) *
            L.tupleSize := Nat.mul_le_mul_right _ (by omega)
        omega)
    have hcap1 : s1.m_size ≤ 2 * s1.m_n + 32 := by
      rw [hsz1, hn1]
      split
      · unfold growCap; split <;> omega
      · omega
    obtain ⟨s2, h2, hrun, hinv2, hn2, hcap2, hlim2, hal2⟩ :=
      ih s1 h1 hinv1 (fun x hx => hty x (List.mem_cons_of_mem _ hx)) hcap1 (by
        rw [hlim1, hn1]
        have : s.m_n + 1 + rest.length = s.m_n + (rest.length + 1) := by omega
        rw [this]; exact hfit)
    refine ⟨s2, h2, ?_, hinv2, ?_, hcap2, hlim2.trans hlim1, hal2.trans hal1⟩
    · simp [runAdds, hadd, hrun]
    · rw [hn2, hn1, hlen]; omega

/-- C1: after any run of `add` calls on a new container, a further `add`
returns the length the container had before the call (the number of earlier
calls), and reading every field back at the returned index gives the value
passed for that field. -/
theorem add_returns_length_and_get_reads_back (L : Layout) (hL : L.WF) (allocator : Nat)
    (h0 : Heap) (hh0 : h0.WF) (halloc : allocator ≠ 0) (as : List (List (List Nat)))
    (args : List (List Nat)) (has : ∀ a ∈ as, WellTyped L a) (hargs : WellTyped L args)
    (hfit : (2 * as.length + 32) * L.tupleSize ≤ h0.limit) :
    ∃ s h s1 h1, runAdds L as (SoA.new allocator) h0 = .ok (s, h) ∧
      (SoA.end_ s).i = as.length ∧
      SoA.add L args s h = .ok ((SoA.end_ s).i, s1, h1) ∧
      ∀ i, i < L.kNumArrays → SoA.read L s1 h1 i (SoA.end_ s).i = .ok (args.getD i []) := by
  obtain ⟨s, h, hrun, hinv, hn, hcap, hlim, _⟩ :=
    runAdds_spec L hL as (SoA.new allocator) h0 (new_inv L allocator h0 hh0 halloc) has
      (by simp [SoA.new]) (by simpa [SoA.new] using hfit)
  have hn0 : s.m_n = as.length := by simpa [SoA.new] using hn
  obtain ⟨s1, h1, hadd, _, _, _, _, hread, _⟩ :=
    add_spec L s h args hL hinv hargs (fun hfull => by
      have hgrow : growCap s.m_size ≤ 2 * s.m_n + 32 := by
        unfold growCap; split <;> omega
      have := Nat.mul_le_mul_right L.tupleSize hgrow
      rw [hlim]
      rw [hn0] at this
      omega)
  exact ⟨s, h, s1, h1, hrun, hn0, hadd, hread⟩

theorem mainLayout_wf : mainLayout.WF := ⟨by decide, by decide⟩

theorem heap0_wf : heap0.WF := ⟨by decide, by decide, fun _ _ => rfl⟩

theorem add_returns_length_and_get_reads_back_witness :
    (∀ a ∈ [person 0 strGandalf 2019, person 1 strFrodo 33], WellTyped mainLayout a) ∧
    WellTyped mainLayout (person 2 strSamwise 61) ∧
    ∃ s h s1 h1,
      runAdds mainLayout [person 0 strGandalf 2019, person 1 strFrodo 33] (SoA.new 1) heap0 =
        .ok (s, h) ∧
      (SoA.end_ s).i = 2 ∧
      SoA.add mainLayout (person 2 strSamwise 61) s h = .ok ((SoA.end_ s).i, s1, h1) ∧
      ∀ i, i < mainLayout.kNumArrays →
        SoA.read mainLayout s1 h1 i (SoA.end_ s).i = .ok ((person 2 strSamwise 61).getD i []) :=
  ⟨by decide, by decide,
    add_returns_length_and_get_reads_back mainLayout mainLayout_wf 1 heap0 heap0_wf (by decide)
      [person 0 strGandalf 2019, person 1 strFrodo 33] (person 2 strSamwise 61)
      (by decide) (by decide) (by decide)⟩

/-! ## `remove` -/

/-- On a consistent container every slot below the capacity can be read. -/
theorem read_ok (L : Layout) (s : SoA) (h : Heap) (hinv : Inv L s h) (i a : Nat)
    (ha : a < s.m_size) :
    ∃ v, SoA.read L s h i a = .ok v ∧ v.length = L.sizeofNth i := by
  obtain ⟨_, _, _, _, hnull, hblk⟩ := hinv
  have hd : s.m_data ≠ 0 := fun h0 => by have := hnull h0; omega
  obtain ⟨b, hb, hbsz⟩ := hblk hd
  have hend := cell_end_le_total L s.m_size i a ha
  unfold SoA.read
  exact load_ok h (SoA.get L s i a) (L.sizeofNth i) b (by simp only [get_eq]; exact hd)
    (by simp only [get_eq]; exact hb) (by simp only [get_eq]; omega)

/-- `remove` on a consistent container: the state record is returned as it
was, slot `index` receives the values of slot `m_n - 1`, every other slot
keeps its values. -/
theorem remove_spec (L : Layout) (s : SoA) (h : Heap) (index : Nat) (hinv : Inv L s h)
    (hidx : index < s.m_n) :
    ∃ h1, SoA.remove L index s h = .ok (s, h1) ∧ SameShape h h1 ∧
      (∀ i, i < L.kNumArrays → SoA.read L s h1 i index = SoA.read L s h i (s.m_n - 1)) ∧
      (∀ i a, a < s.m_size → a ≠ index → SoA.read L s h1 i a = SoA.read L s h i a) := by
  have hinv0 := hinv
  obtain ⟨_, _, hn, _, hnull, hblk⟩ := hinv
  have hd : s.m_data ≠ 0 := fun h0 => by have := hnull h0; omega
  obtain ⟨b, hb, hbsz⟩ := hblk hd
  have hidx2 : index < s.m_size := by omega
  have hlast : s.m_n - 1 < s.m_size := by omega
  obtain ⟨key, hkey, _⟩ := read_ok L s h hinv0 0 index hidx2
  obtain ⟨last_key, hlast_key, _⟩ := read_ok L s h hinv0 0 (s.m_n - 1) hlast
  have hloop := static_for_rule (fun i h1 =>
      match h1.load (SoA.get L s i (s.m_n - 1)) (L.sizeofNth i) with
      | .error e => .error e
      | .ok v => h1.store (SoA.get L s i index) v)
    (fun i h1 => SameShape h h1 ∧
      (∀ j, j < i → SoA.read L s h1 j index = SoA.read L s h j (s.m_n - 1)) ∧
      (∀ j a, a < s.m_size → (a ≠ index ∨ i ≤ j) → SoA.read L s h1 j a = SoA.read L s h j a))
    L.kNumArrays h
    ⟨SameShape.refl h, fun j hj => absurd hj (Nat.not_lt_zero j), fun _ _ _ _ => rfl⟩
    (by
      intro i h1 _ ⟨hss, hmoved, hframe⟩
      obtain ⟨v, hv, hvlen⟩ := read_ok L s h hinv0 i (s.m_n - 1) hlast
      have hv1 : h1.load (SoA.get L s i (s.m_n - 1)) (L.sizeofNth i) = .ok v := by
        have := hframe i (s.m_n - 1) hlast (Or.inr (Nat.le_refl i))
        unfold SoA.read at this hv
        rw [this, hv]
      obtain ⟨b1, hb1, hb1sz⟩ := hss.block hb
      have hend := cell_end_le_total L s.m_size i index hidx2
      obtain ⟨h2, hst⟩ := store_ok h1 (SoA.get L s i index) v b1
        (by simp only [get_eq]; exact hd) (by simp only [get_eq]; exact hb1)
        (by simp only [get_eq, hvlen]; omega)
      refine ⟨h2, by simp only [hv1, hst], hss.trans (store_sameShape hst), ?_, ?_⟩
      · intro j hj
        rcases Nat.lt_succ_iff_lt_or_eq.mp hj with hlt | heq
        · have hdis := cell_disjoint L s.m_size j index i index hidx2 hidx2 (Or.inl (by omega))
          have e1 : SoA.read L s h2 j index = SoA.read L s h1 j index := by
            unfold SoA.read
            exact load_store_other hst _ _ (Or.inr (by simp only [get_eq, hvlen]; omega))
          rw [e1]
          exact hmoved j hlt
        · subst heq
          have e1 : SoA.read L s h2 j index = .ok v := by
            unfold SoA.read
            rw [← hvlen]
            exact load_store_same hst
          rw [e1, hv]
      · intro j a ha hcase
        have hne : j ≠ i ∨ a ≠ index := by
          rcases hcase with hc | hc
          · exact Or.inr hc
          · exact Or.inl (by omega)
        have hdis := cell_disjoint L s.m_size j a i index ha hidx2 hne
        have e1 : SoA.read L s h2 j a = SoA.read L s h1 j a := by
          unfold SoA.read
          exact load_store_other hst _ _ (Or.inr (by simp only [get_eq, hvlen]; omega))
        rw [e1]
        exact hframe j a ha (by
          rcases hcase with hc | hc
          · exact Or.inl hc
          · exact Or.inr (by omega)))
  obtain ⟨h1, hrun, hss, hmoved, hframe⟩ := hloop
  refine ⟨h1, ?_, hss, hmoved, fun i a ha hne => hframe i a ha (Or.inl hne)⟩
  have hkey2 : h.load ⟨s.m_data, 0 + index * L.sizeofNth 0⟩ (L.sizeofNth 0) = .ok key := by
    have := hkey
    simp only [SoA.read, get_eq, sizeBefore_zero, Nat.mul_zero] at this
    exact this
  have hlast2 : h.load ⟨s.m_data, 0 + (s.m_n - 1) * L.sizeofNth 0⟩ (L.sizeofNth 0) =
      .ok last_key := by
    have := hlast_key
    simp only [SoA.read, get_eq, sizeBefore_zero, Nat.mul_zero] at this
    exact this
  unfold SoA.remove
  simp only [hidx, not_true_eq_false, if_false, SoA.get_array, hkey2, hlast2, hrun]

/-! ## Properties of `remove`, `allocate` and the growth of `add` -/

theorem peopleState_inv : Inv mainLayout peopleState.1 peopleState.2 := by
  obtain ⟨s, h, hrun, hinv, _⟩ := runAdds_spec mainLayout mainLayout_wf people (SoA.new 1)
    heap0 (new_inv mainLayout 1 heap0 heap0_wf (by decide)) (by decide) (by decide) (by decide)
  have : peopleState = (s, h) := by simp [peopleState, hrun, stateOf]
  rw [this]
  exact hinv

/-- C2: in the scenario of the specification (three `add` calls, then
`remove(0)`) the run succeeds and `end()` still reports 3, not 3 - 1 = 2:
`remove` does not decrement the length. -/
theorem remove_keeps_length :
    (match runOps mainLayout
        [.add (person 0 strGandalf 2019), .add (person 1 strFrodo 33),
          .add (person 2 strSamwise 61), .remove 0] (SoA.new 1) heap0 with
      | .ok (s, _) => some (SoA.end_ s).i
      | .error _ => none) = some 3 := by
  decide

/-- C3: on a consistent container of length at least 1, `remove(index)` with
`index < length` succeeds, and afterwards every field reads at `index` the
value it had at `length - 1` before the call. -/
theorem remove_moves_last_into_index (L : Layout) (s : SoA) (h : Heap) (index : Nat)
    (hinv : Inv L s h) (hlen : 1 ≤ (SoA.end_ s).i) (hidx : index < (SoA.end_ s).i) :
    ∃ s1 h1, SoA.remove L index s h = .ok (s1, h1) ∧
      ∀ i, i < L.kNumArrays → ∃ v, v.length = L.sizeofNth i ∧
        SoA.read L s h i ((SoA.end_ s).i - 1) = .ok v ∧ SoA.read L s1 h1 i index = .ok v := by
  obtain ⟨h1, hrm, _, hmoved, _⟩ := remove_spec L s h index hinv hidx
  refine ⟨s, h1, hrm, fun i hi => ?_⟩
  have hn := hinv.2.2.1
  have hlen1 : 1 ≤ s.m_n := hlen
  obtain ⟨v, hv, hvlen⟩ := read_ok L s h hinv i (s.m_n - 1) (by omega)
  exact ⟨v, hvlen, hv, (hmoved i hi).trans hv⟩

theorem remove_moves_last_into_index_witness :
    1 ≤ (SoA.end_ peopleState.1).i ∧ 0 < (SoA.end_ peopleState.1).i ∧
    (∃ s1 h1, SoA.remove mainLayout 0 peopleState.1 peopleState.2 = .ok (s1, h1) ∧
      ∀ i, i < mainLayout.kNumArrays → ∃ v, v.length = mainLayout.sizeofNth i ∧
        SoA.read mainLayout peopleState.1 peopleState.2 i ((SoA.end_ peopleState.1).i - 1) =
          .ok v ∧
        SoA.read mainLayout s1 h1 i 0 = .ok v) ∧
    (match SoA.remove mainLayout 0 peopleState.1 peopleState.2 with
      | .ok (s1, h1) => some (SoA.read mainLayout s1 h1 0 0, SoA.read mainLayout s1 h1 1 0)
      | .error _ => none) = some (.ok (bytesOf 8 2), .ok (bytesOf 8 strSamwise)) :=
  ⟨by decide, by decide,
    remove_moves_last_into_index mainLayout peopleState.1 peopleState.2 0 peopleState_inv
      (by decide) (by decide),
    rfl⟩

/-- The frame of `remove`: the capacity, the block and every slot other than
`index` are as before. -/
theorem remove_frame (L : Layout) (s : SoA) (h : Heap) (index : Nat)
    (hinv : Inv L s h) (hidx : index < s.m_n) :
    ∃ s1 h1, SoA.remove L index s h = .ok (s1, h1) ∧ s1.m_size = s.m_size ∧
      s1.m_data = s.m_data ∧
      ∀ i j, i < L.kNumArrays → j < s.m_n → j ≠ index →
        SoA.read L s1 h1 i j = SoA.read L s h i j := by
  obtain ⟨h1, hrm, _, _, hframe⟩ := remove_spec L s h index hinv hidx
  have hn := hinv.2.2.1
  exact ⟨s, h1, hrm, rfl, rfl, fun i j _ hj hne => hframe i j (by omega) hne⟩

/-- C4: `remove(2)` on the three-element container of `main`, the case
`index == length - 1`: the capacity stays 32 and the values of the elements 0
and 1 stay, yet `end()` still reports 3: the length is not truncated to 2. -/
theorem remove_last_does_not_truncate :
    (match SoA.remove mainLayout 2 peopleState.1 peopleState.2 with
      | .ok (s1, h1) =>
        some ((SoA.end_ s1).i, s1.m_size,
          SoA.read mainLayout s1 h1 0 0, SoA.read mainLayout s1 h1 1 1)
      | .error _ => none) =
      some (3, 32, .ok (bytesOf 8 0), .ok (bytesOf 8 strFrodo)) := by
  rfl

/-- C5, amended: on a consistent container, `allocate(new_capacity)` with
`new_capacity` above the capacity, a request `new_capacity * sizeof(tuple)`
that does not wrap around `2 ^ 64`, and an allocator that serves that request,
succeeds; the capacity becomes `new_capacity`, the length is unchanged,
sub-array `i` of the new block starts at `new_capacity` times the bytes of the
fields before `i`, and every field of every element below the length reads
the value it read before. -/
theorem allocate_grows_and_preserves (L : Layout) (hL : L.WF) (s : SoA) (h : Heap)
    (new_capacity : Nat) (hinv : Inv L s h) (hgt : s.m_size < new_capacity)
    (hnowrap : new_capacity * L.tupleSize < sizeMod)
    (hserved : new_capacity * L.tupleSize % sizeMod ≤ h.limit) :
    ∃ s1 h1, SoA.allocate L new_capacity s h = .ok (s1, h1) ∧
      s1.m_size = new_capacity ∧ s.m_size < s1.m_size ∧ (SoA.end_ s1).i = (SoA.end_ s).i ∧
      (∀ i, SoA.get_array L i s1.m_data s1.m_size =
        ⟨s1.m_data, new_capacity * L.sizeBefore i⟩) ∧
      ∀ i a, i < L.kNumArrays → a < (SoA.end_ s).i →
        ∃ v, SoA.read L s h i a = .ok v ∧ SoA.read L s1 h1 i a = .ok v := by
  have hfit : new_capacity * L.tupleSize ≤ h.limit := by
    rw [Nat.mod_eq_of_lt hnowrap] at hserved
    exact hserved
  obtain ⟨h1, hal, _, hkeep, _⟩ := allocate_spec L s h new_capacity hL hinv hgt hfit
  have hn := hinv.2.2.1
  refine ⟨_, h1, hal, rfl, hgt, rfl, fun i => get_array_eq L i _ _, fun i a hi ha => ?_⟩
  have ha1 : a < s.m_n := ha
  obtain ⟨v, hv, _⟩ := read_ok L s h hinv i a (by omega)
  exact ⟨v, hv, (hkeep i a hi ha1).trans hv⟩

theorem allocate_grows_and_preserves_witness :
    peopleState.1.m_size < 64 ∧ 64 * mainLayout.tupleSize < sizeMod ∧
    64 * mainLayout.tupleSize % sizeMod ≤ peopleState.2.limit ∧
    ∃ s1 h1, SoA.allocate mainLayout 64 peopleState.1 peopleState.2 = .ok (s1, h1) ∧
      s1.m_size = 64 ∧ peopleState.1.m_size < s1.m_size ∧
      (SoA.end_ s1).i = (SoA.end_ peopleState.1).i ∧
      (∀ i, SoA.get_array mainLayout i s1.m_data s1.m_size =
        ⟨s1.m_data, 64 * mainLayout.sizeBefore i⟩) ∧
      ∀ i a, i < mainLayout.kNumArrays → a < (SoA.end_ peopleState.1).i →
        ∃ v, SoA.read mainLayout peopleState.1 peopleState.2 i a = .ok v ∧
          SoA.read mainLayout s1 h1 i a = .ok v :=
  ⟨by decide, by decide, by decide,
    allocate_grows_and_preserves mainLayout mainLayout_wf peopleState.1 peopleState.2 64
      peopleState_inv (by decide) (by decide) (by decide)⟩

/-- C6, as stated, fails: a container whose capacity 5 was set by an explicit
`allocate(5)` and which holds 5 elements grows to 10 on the next `add`, not to
`max(5 * 2, 32) = 32`. -/
theorem add_growth_is_not_max_counterexample :
    filledState.1.m_size = 5 ∧ filledState.1.m_n = filledState.1.m_size ∧
    (match SoA.add ⟨[1], 1⟩ [[15]] filledState.1 filledState.2 with
      | .ok (_, s1, _) => some s1.m_size
      | .error _ => none) = some 10 ∧
    (10 : Nat) ≠ max (filledState.1.m_size * 2) 32 := by
  decide

/-- C6, amended: on a consistent container `add` succeeds; it leaves the
capacity unchanged when `length < capacity`; when `length == capacity` it
grows the container to 32 if the capacity is 0 and to twice the capacity
otherwise, and the element is stored in the grown container. -/
theorem add_capacity (L : Layout) (hL : L.WF) (s : SoA) (h : Heap) (args : List (List Nat))
    (hinv : Inv L s h) (hargs : WellTyped L args)
    (hfit : s.m_n = s.m_size → growCap s.m_size * L.tupleSize ≤ h.limit) :
    ∃ r s1 h1, SoA.add L args s h = .ok (r, s1, h1) ∧
      (s.m_n < s.m_size → s1.m_size = s.m_size) ∧
      (s.m_n = s.m_size → s.m_size = 0 → s1.m_size = 32) ∧
      (s.m_n = s.m_size → s.m_size ≠ 0 → s1.m_size = s.m_size * 2) ∧
      ∀ i, i < L.kNumArrays → SoA.read L s1 h1 i r = .ok (args.getD i []) := by
  obtain ⟨s1, h1, hadd, _, hsz, _, _, hread, _⟩ := add_spec L s h args hL hinv hargs hfit
  refine ⟨s.m_n, s1, h1, hadd, ?_, ?_, ?_, hread⟩
  · intro hlt
    rw [hsz, if_neg (by omega)]
  · intro hfull hz
    rw [hsz, if_pos hfull]
    simp [growCap, hz]
  · intro hfull hz
    rw [hsz, if_pos hfull]
    simp [growCap, hz, Nat.mul_comm]

theorem runOps_cons_ok {L : Layout} {op : Op} {rest : List Op} {s s1 : SoA} {h h1 : Heap}
    (hstep : op.step L s h = .ok (s1, h1)) :
    runOps L (op :: rest) s h = runOps L rest s1 h1 := by
  simp [runOps, hstep]

theorem runOps_adds (L : Layout) (as : List (List (List Nat))) :
    ∀ (s : SoA) (h : Heap), runOps L (as.map Op.add) s h = runAdds L as s h := by
  induction as with
  | nil => intro s h; rfl
  | cons a rest ih =>
    intro s h
    simp only [List.map, runOps, runAdds, Op.step]
    cases hadd : SoA.add L a s h with
    | error e => rfl
    | ok r =>
      obtain ⟨_, s1, h1⟩ := r
      exact ih s1 h1

theorem filledState_inv : Inv ⟨[1], 1⟩ filledState.1 filledState.2 := by
  have hL : Layout.WF ⟨[1], 1⟩ := ⟨by decide, by decide⟩
  obtain ⟨h1, hal, hinv1, _, hlim1, _⟩ := allocate_spec ⟨[1], 1⟩ (SoA.new 1) heap0 5 hL
    (new_inv _ 1 heap0 heap0_wf (by decide)) (by decide) (by decide)
  obtain ⟨s2, h2, hrun, hinv2, _⟩ := runAdds_spec ⟨[1], 1⟩ hL
    [[[10]], [[11]], [[12]], [[13]], [[14]]] _ h1 hinv1 (by decide) (by decide)
    (by rw [hlim1]; decide)
  have hstep : (Op.allocate 5).step ⟨[1], 1⟩ (SoA.new 1) heap0 = .ok (_, h1) := hal
  have : filledState = (s2, h2) := by
    unfold filledState
    rw [runOps_cons_ok hstep]
    rw [show [Op.add [[10]], Op.add [[11]], Op.add [[12]], Op.add [[13]], Op.add [[14]]] =
      List.map Op.add [[[10]], [[11]], [[12]], [[13]], [[14]]] from rfl]
    rw [runOps_adds, hrun]
    rfl
  rw [this]
  exact hinv2

theorem add_capacity_witness :
    WellTyped ⟨[1], 1⟩ [[15]] ∧
    (filledState.1.m_n = filledState.1.m_size →
      growCap filledState.1.m_size * 1 ≤ filledState.2.limit) ∧
    ∃ r s1 h1, SoA.add ⟨[1], 1⟩ [[15]] filledState.1 filledState.2 = .ok (r, s1, h1) ∧
      (filledState.1.m_n < filledState.1.m_size → s1.m_size = filledState.1.m_size) ∧
      (filledState.1.m_n = filledState.1.m_size → filledState.1.m_size = 0 →
        s1.m_size = 32) ∧
      (filledState.1.m_n = filledState.1.m_size → filledState.1.m_size ≠ 0 →
        s1.m_size = filledState.1.m_size * 2) ∧
      ∀ i, i < Layout.kNumArrays ⟨[1], 1⟩ →
        SoA.read ⟨[1], 1⟩ s1 h1 i r = .ok (List.getD [[15]] i []) :=
  ⟨by decide, by decide,
    add_capacity ⟨[1], 1⟩ ⟨by decide, by decide⟩ filledState.1 filledState.2 [[15]]
      filledState_inv (by decide) (by decide)⟩

/-! ## Growth under `add` alone -/

theorem cap_le_of_le {a b : Nat} (hab : a ≤ b) : 32 * 2 ^ a ≤ 32 * 2 ^ b :=
  Nat.mul_le_mul_left _ (Nat.pow_le_pow_right (by decide) hab)

theorem lt_of_cap_lt {a b : Nat} (h : 32 * 2 ^ a < 32 * 2 ^ b) : a < b := by
  by_contra hge
  have := cap_le_of_le (Nat.le_of_not_lt hge)
  omega

theorem cap_succ (a : Nat) : 32 * 2 ^ (a + 1) = 2 * (32 * 2 ^ a) := by
  rw [Nat.pow_succ]; omega

theorem cap_pos (a : Nat) : 32 ≤ 32 * 2 ^ a := by
  have := cap_le_of_le (Nat.zero_le a)
  simpa using this

theorem allocBytes_append (l1 l2 : List Event) :
    allocBytes (l1 ++ l2) = allocBytes l1 ++ allocBytes l2 := by
  simp [allocBytes, List.filterMap_append]

theorem allocBytes_growth (bytes p d : Nat) :
    allocBytes (Event.alloc bytes p :: (if d = 0 then [] else [Event.dealloc d])) = [bytes] := by
  split <;> simp [allocBytes, List.filterMap]

/-- One `add` keeps the growth pattern; it grows exactly when the container
is full. -/
theorem growthInv_step (T : Nat) (base : List Nat) (s s1 : SoA) (h h1 : Heap) (g p : Nat)
    (_hn : s.m_n ≤ s.m_size) (hg : GrowthInv T base s h g) (hn1 : s1.m_n = s.m_n + 1)
    (hsz1 : s1.m_size = (if s.m_n = s.m_size then growCap s.m_size else s.m_size))
    (hlog1 : h1.log = h.log ++ (if s.m_n = s.m_size then
        Event.alloc (growCap s.m_size * T) p ::
          (if s.m_data = 0 then [] else [Event.dealloc s.m_data]) else [])) :
    GrowthInv T base s1 h1 (if s.m_n = s.m_size then g + 1 else g) := by
  obtain ⟨hbytes, hcase⟩ := hg
  by_cases hfull : s.m_n = s.m_size
  · simp only [hfull, if_true] at hsz1 hlog1 ⊢
    refine ⟨?_, Or.inr ?_⟩
    · rw [hlog1, allocBytes_append, allocBytes_growth, hbytes, List.range_succ, List.map_append,
        List.append_assoc]
      congr 2
      rcases hcase with ⟨hg0, hs0, _⟩ | ⟨hg1, hs, _, _⟩
      · simp [growCap, hs0, hg0]
      · have hne : s.m_size ≠ 0 := by have := cap_pos (g - 1); omega
        have hgg : g = (g - 1) + 1 := by omega
        simp only [List.map, growCap, hne, if_false]
        rw [hs]
        conv_rhs => rw [hgg, cap_succ]
    · rcases hcase with ⟨hg0, hs0, hn0⟩ | ⟨hg1, hs, hn1', hmin⟩
      · refine ⟨by omega, ?_, by omega, fun h2 => by omega⟩
        simp [hsz1, growCap, hs0, hg0]
      · have hne : s.m_size ≠ 0 := by have := cap_pos (g - 1); omega
        refine ⟨by omega, ?_, by omega, fun _ => ?_⟩
        · have hgg : g + 1 - 1 = (g - 1) + 1 := by omega
          rw [hsz1, hgg, cap_succ, ← hs]
          simp [growCap, hne]
        · have hgg : g + 1 - 2 = g - 1 := by omega
          rw [hgg, ← hs, hn1]
          omega
  · simp only [hfull, if_false] at hsz1 hlog1 ⊢
    refine ⟨by rw [hlog1, List.append_nil]; exact hbytes, ?_⟩
    rcases hcase with ⟨_, hs0, hn0⟩ | ⟨hg1, hs, hn1', hmin⟩
    · exact absurd (hn0.trans hs0.symm) hfull
    · exact Or.inr ⟨hg1, by rw [hsz1]; exact hs, by omega, fun h2 => by have := hmin h2; omega⟩

/-- The capacity of a container in the growth pattern bounds its length as
`runAdds_spec` requires. -/
theorem growthInv_cap {T : Nat} {base : List Nat} {s : SoA} {h : Heap} {g : Nat}
    (hg : GrowthInv T base s h g) : s.m_size ≤ 2 * s.m_n + 32 := by
  rcases hg.2 with ⟨_, hs0, _⟩ | ⟨hg1, hs, hn1, hmin⟩
  · omega
  · by_cases h2 : 2 ≤ g
    · have := hmin h2
      have hgg : g - 1 = (g - 2) + 1 := by omega
      rw [hgg, cap_succ] at hs
      omega
    · have : g - 1 = 0 := by omega
      rw [this] at hs
      simp at hs
      omega

/-- A run of `add` calls keeps the growth pattern. -/
theorem runAdds_growth (L : Layout) (hL : L.WF) (base : List Nat)
    (as : List (List (List Nat))) :
    ∀ (s : SoA) (h : Heap) (g : Nat), Inv L s h → (∀ a ∈ as, WellTyped L a) →
      GrowthInv L.tupleSize base s h g →
      (2 * (s.m_n + as.length) + 32) * L.tupleSize ≤ h.limit →
      ∃ s1 h1 g1, runAdds L as s h = .ok (s1, h1) ∧ Inv L s1 h1 ∧
        s1.m_n = s.m_n + as.length ∧ h1.limit = h.limit ∧
        GrowthInv L.tupleSize base s1 h1 g1 := by
  induction as with
  | nil =>
    intro s h g hinv _ hg _
    exact ⟨s, h, g, rfl, hinv, rfl, rfl, hg⟩
  | cons a rest ih =>
    intro s h g hinv hty hg hfit
    have hlen : (a :: rest).length = rest.length + 1 := rfl
    rw [hlen] at hfit
    have hcap := growthInv_cap hg
    obtain ⟨s1, h1, hadd, hn1, hsz1, _, hinv1, _, _, hlim1, _, hlog1⟩ :=
      add_spec L s h a hL hinv (hty a (List.mem_cons_self _ _)) (fun hfull => by
        have hgrow : growCap s.m_size ≤ 2 * s.m_n + 32 := by
          unfold growCap; split <;> omega
        have := Nat.mul_le_mul_right L.tupleSize hgrow
        have h2 : (2 * s.m_n + 32) * L.tupleSize ≤ (2 * (s.m_n + (rest.length + 1)) + 32) *
            L.tupleSize := Nat.mul_le_mul_right _ (by omega)
        omega)
    have hg1 := growthInv_step L.tupleSize base s s1 h h1 g h.next hinv.2.2.1 hg hn1 hsz1 hlog1
    obtain ⟨s2, h2, g2, hrun, hinv2, hn2, hlim2, hg2⟩ :=
      ih s1 h1 _ hinv1 (fun x hx => hty x (List.mem_cons_of_mem _ hx)) hg1 (by
        rw [hlim1, hn1]
        have : s.m_n + 1 + rest.length = s.m_n + (rest.length + 1) := by omega
        rw [this]; exact hfit)
    refine ⟨s2, h2, g2, ?_, hinv2, ?_, hlim2.trans hlim1, hg2⟩
    · simp [runAdds, hadd, hrun]
    · rw [hn2, hn1, hlen]; omega

/-- In the growth pattern the container is full exactly at the lengths 0, 32,
64, 128, ... -/
theorem growthInv_full_iff {T : Nat} {base : List Nat} {s : SoA} {h : Heap} {g : Nat}
    (hn : s.m_n ≤ s.m_size) (hg : GrowthInv T base s h g) :
    s.m_n = s.m_size ↔ (s.m_n = 0 ∨ ∃ j, s.m_n = 32 * 2 ^ j) := by
  rcases hg.2 with ⟨_, hs0, hn0⟩ | ⟨hg1, hs, hn1, hmin⟩
  · constructor
    · intro _; exact Or.inl hn0
    · intro _; omega
  · constructor
    · intro hfull
      exact Or.inr ⟨g - 1, by omega⟩
    · rintro (h0 | ⟨j, hj⟩)
      · omega
      · have hjle : j ≤ g - 1 := by
          by_contra hgt
          have := cap_le_of_le (show g - 1 + 1 ≤ j by omega)
          rw [cap_succ] at this
          have := cap_pos (g - 1)
          omega
        rcases Nat.lt_or_ge j (g - 1) with hlt | hge
        · have h2 : 2 ≤ g := by omega
          have h3 := hmin h2
          rw [hj] at h3
          have := lt_of_cap_lt h3
          omega
        · have : j = g - 1 := by omega
          rw [hj, hs, this]

/-- In the growth pattern a non-empty container has the smallest capacity of
the form `32 * 2 ^ j` that holds its elements. -/
theorem growthInv_smallest {T : Nat} {base : List Nat} {s : SoA} {h : Heap} {g : Nat}
    (hn : s.m_n ≤ s.m_size) (hpos : 1 ≤ s.m_n) (hg : GrowthInv T base s h g) :
    1 ≤ g ∧ s.m_size = 32 * 2 ^ (g - 1) ∧ SmallestCap s.m_size s.m_n := by
  rcases hg.2 with ⟨_, _, hn0⟩ | ⟨hg1, hs, _, hmin⟩
  · omega
  · refine ⟨hg1, hs, g - 1, hs, hn, fun j1 hj1 => ?_⟩
    rw [hs]
    by_cases h2 : 2 ≤ g
    · have h3 := hmin h2
      have h4 : g - 2 < j1 := lt_of_cap_lt (by omega)
      exact cap_le_of_le (by omega)
    · exact cap_le_of_le (by omega)

/-- C7: on a new container filled by `add` alone, the `k`-th `add`
(`k = as.length + 1`) changes the capacity exactly when `k - 1` is 0 or of
the form `32 * 2 ^ j`; the capacity after `k` adds is the smallest
`32 * 2 ^ j` that is at least `k` (and so was the capacity before the `k`-th
add for `k - 1`, or 0 when `k = 1`); and the sizes requested from the
allocator so far are those of 32, 64, ..., up to the current capacity. -/
theorem adds_grow_at_powers (L : Layout) (hL : L.WF) (allocator : Nat)
    (h0 : Heap) (hh0 : h0.WF) (halloc : allocator ≠ 0) (as : List (List (List Nat)))
    (args : List (List Nat)) (has : ∀ a ∈ as, WellTyped L a) (hargs : WellTyped L args)
    (hfit : (2 * as.length + 32) * L.tupleSize ≤ h0.limit) :
    ∃ s h s1 h1, runAdds L as (SoA.new allocator) h0 = .ok (s, h) ∧
      SoA.add L args s h = .ok (as.length, s1, h1) ∧
      (s.m_size ≠ s1.m_size ↔ (as.length = 0 ∨ ∃ j, as.length = 32 * 2 ^ j)) ∧
      SmallestCap s1.m_size (as.length + 1) ∧
      (as.length = 0 → s.m_size = 0) ∧
      (0 < as.length → SmallestCap s.m_size as.length) ∧
      ∃ j, s1.m_size = 32 * 2 ^ j ∧
        allocBytes h1.log =
          allocBytes h0.log ++ (List.range (j + 1)).map (fun t => 32 * 2 ^ t * L.tupleSize) := by
  have hg0 : GrowthInv L.tupleSize (allocBytes h0.log) (SoA.new allocator) h0 0 :=
    ⟨by simp, Or.inl ⟨rfl, rfl, rfl⟩⟩
  obtain ⟨s, h, g, hrun, hinv, hn, hlim, hg⟩ :=
    runAdds_growth L hL (allocBytes h0.log) as (SoA.new allocator) h0 0
      (new_inv L allocator h0 hh0 halloc) has hg0 (by simpa [SoA.new] using hfit)
  have hn0 : s.m_n = as.length := by simpa [SoA.new] using hn
  have hle := hinv.2.2.1
  have hcap := growthInv_cap hg
  obtain ⟨s1, h1, hadd, hn1, hsz1, _, hinv1, _, _, _, _, hlog1⟩ :=
    add_spec L s h args hL hinv hargs (fun hfull => by
      have hgrow : growCap s.m_size ≤ 2 * s.m_n + 32 := by
        unfold growCap; split <;> omega
      have := Nat.mul_le_mul_right L.tupleSize hgrow
      rw [hlim]
      rw [hn0] at this
      omega)
  have hg1 := growthInv_step L.tupleSize (allocBytes h0.log) s s1 h h1 g h.next hle hg hn1
    hsz1 hlog1
  have hle1 := hinv1.2.2.1
  obtain ⟨hg1pos, hs1, hsmall1⟩ := growthInv_smallest hle1 (by omega) hg1
  have hfull := growthInv_full_iff hle hg
  refine ⟨s, h, s1, h1, hrun, by rw [← hn0]; exact hadd, ?_, ?_, ?_, ?_, ?_⟩
  · rw [← hn0, ← hfull, hsz1]
    constructor
    · intro hne
      by_contra hnf
      simp [hnf] at hne
    · intro hf
      have := growCap_pos s.m_size
      simp only [hf, if_true]
      omega
  · rw [← hn0, ← hn1]; exact hsmall1
  · intro hz
    rcases hg.2 with ⟨_, hs0, _⟩ | ⟨_, _, hpos, _⟩
    · exact hs0
    · omega
  · intro hpos
    rw [← hn0]
    exact (growthInv_smallest hle (by omega) hg).2.2
  · refine ⟨(if s.m_n = s.m_size then g + 1 else g) - 1, hs1, ?_⟩
    rw [hg1.1]
    have : (if s.m_n = s.m_size then g + 1 else g) - 1 + 1 =
        (if s.m_n = s.m_size then g + 1 else g) := by omega
    rw [this]

theorem smallestCap_32 {c : Nat} (h : SmallestCap c 32) : c = 32 := by
  obtain ⟨j, _, hle, hmin⟩ := h
  have := hmin 0 (by decide)
  omega

theorem smallestCap_33 {c : Nat} (h : SmallestCap c 33) : c = 64 := by
  obtain ⟨j, hj, hle, hmin⟩ := h
  have h1 := hmin 1 (by decide)
  have hj1 : 1 ≤ j := by
    by_contra h0
    have : j = 0 := by omega
    rw [this] at hj
    omega
  have := cap_le_of_le hj1
  omega

/-- The 33 `add` calls of the growth scenario: the first 32 leave the capacity
at 32, the 33rd grows it to 64, and the allocator saw exactly two requests,
for 32 and for 64 slots. -/
theorem adds_grow_at_powers_witness :
    ∃ s h s1 h1,
      runAdds mainLayout (List.replicate 32 (person 0 strGandalf 2019)) (SoA.new 1) heap0 =
        .ok (s, h) ∧
      SoA.add mainLayout (person 1 strFrodo 33) s h = .ok (32, s1, h1) ∧
      s.m_size = 32 ∧ s1.m_size = 64 ∧ allocBytes h1.log = [32 * 24, 64 * 24] := by
  obtain ⟨s, h, s1, h1, hrun, hadd, _, hsm1, _, hsm, j, hj, hlog⟩ :=
    adds_grow_at_powers mainLayout mainLayout_wf 1 heap0 heap0_wf (by decide)
      (List.replicate 32 (person 0 strGandalf 2019)) (person 1 strFrodo 33)
      (fun a ha => by rw [List.eq_of_mem_replicate ha]; decide) (by decide) (by decide)
  have hlen : (List.replicate 32 (person 0 strGandalf 2019)).length = 32 := by simp
  rw [hlen] at hadd hsm hsm1
  have e1 := smallestCap_32 (hsm (by decide))
  have e2 := smallestCap_33 hsm1
  have hj1 : j = 1 := by
    rw [e2] at hj
    have a1 : ¬ j < 1 := fun hlt => by
      have := cap_le_of_le (show j ≤ 0 by omega)
      omega
    have a2 : ¬ 1 < j := fun hlt => by
      have := cap_le_of_le (show 2 ≤ j by omega)
      omega
    omega
  refine ⟨s, h, s1, h1, hrun, hadd, e1, e2, ?_⟩
  rw [hlog, hj1]
  decide

/-! ## Iteration -/

theorem iterLoop_spec (n : Nat) :
    ∀ (i fuel : Nat), i + n < sizeMod → n ≤ fuel →
      iterLoop fuel ⟨i⟩ ⟨i + n⟩ = some ((List.range n).map (fun k => i + k), n) := by
  induction n with
  | zero =>
    intro i fuel _ _
    cases fuel <;> simp [iterLoop, iterator.ne]
  | succ n ih =>
    intro i fuel hlt hfuel
    obtain ⟨f, rfl⟩ : ∃ f, fuel = f + 1 := ⟨fuel - 1, by omega⟩
    have hne : iterator.ne ⟨i⟩ ⟨i + (n + 1)⟩ = true := by
      simp [iterator.ne]
    have hincr : iterator.incr ⟨i⟩ = ⟨i + 1⟩ := by
      simp only [iterator.incr]
      rw [Nat.mod_eq_of_lt (by omega)]
    have hlast : (⟨i + (n + 1)⟩ : iterator) = ⟨i + 1 + n⟩ := by
      congr 1; omega
    have hih := ih (i + 1) f (by omega) (by omega)
    have hfun : (fun k => i + 1 + k) = ((fun k => i + k) ∘ Nat.succ) := by
      funext k
      simp only [Function.comp]
      omega
    rw [iterLoop, hne, if_pos rfl, hincr, hlast, hih]
    simp only [iterator.deref, List.range_succ_eq_map, List.map_cons, List.map_map,
      Nat.add_zero, hfun]

theorem iterLoop_short (n : Nat) :
    ∀ (i fuel : Nat), i + n < sizeMod → fuel < n → iterLoop fuel ⟨i⟩ ⟨i + n⟩ = none := by
  induction n with
  | zero => intro i fuel _ h; omega
  | succ n ih =>
    intro i fuel hlt hfuel
    have hne : iterator.ne ⟨i⟩ ⟨i + (n + 1)⟩ = true := by
      simp [iterator.ne]
    cases fuel with
    | zero => rw [iterLoop, hne, if_pos rfl]
    | succ f =>
      have hincr : iterator.incr ⟨i⟩ = ⟨i + 1⟩ := by
        simp only [iterator.incr]
        rw [Nat.mod_eq_of_lt (by omega)]
      have hlast : (⟨i + (n + 1)⟩ : iterator) = ⟨i + 1 + n⟩ := by
        congr 1; omega
      rw [iterLoop, hne, if_pos rfl, hincr, hlast, ih (i + 1) f (by omega) (by omega)]

/-- C8: iterating a container of length `k` from `begin()` until the iterator
equals `end()` yields exactly `0, 1, ..., k - 1` in ascending order (nothing
when `k = 0`) and stops after `k` increments, no fewer; any two passes over
the unchanged container yield the same sequence. -/
theorem iterate_yields_indices (s : SoA) (hk : s.m_n < sizeMod) :
    (∀ fuel, s.m_n ≤ fuel → s.iterate fuel = some (List.range s.m_n, s.m_n)) ∧
    (∀ fuel, fuel < s.m_n → s.iterate fuel = none) ∧
    (s.m_n = 0 → s.iterate 0 = some ([], 0)) ∧
    (∀ fuel1 fuel2, s.m_n ≤ fuel1 → s.m_n ≤ fuel2 → s.iterate fuel1 = s.iterate fuel2) := by
  have hmain : ∀ fuel, s.m_n ≤ fuel → s.iterate fuel = some (List.range s.m_n, s.m_n) := by
    intro fuel hfuel
    have := iterLoop_spec s.m_n 0 fuel (by omega) hfuel
    simp only [Nat.zero_add] at this
    simpa [SoA.iterate, SoA.begin, SoA.end_] using this
  refine ⟨hmain, ?_, ?_, ?_⟩
  · intro fuel hfuel
    have := iterLoop_short s.m_n 0 fuel (by omega) hfuel
    simp only [Nat.zero_add] at this
    simpa [SoA.iterate, SoA.begin, SoA.end_] using this
  · intro hz
    have := hmain 0 (by omega)
    rw [this, hz]
    rfl
  · intro fuel1 fuel2 h1 h2
    rw [hmain fuel1 h1, hmain fuel2 h2]

theorem iterate_yields_indices_witness :
    peopleState.1.m_n < sizeMod ∧
    peopleState.1.iterate 3 = some ([0, 1, 2], 3) ∧
    peopleState.1.iterate 2 = none ∧
    peopleState.1.iterate 10 = peopleState.1.iterate 3 :=
  ⟨by decide,
    (iterate_yields_indices peopleState.1 (by decide)).1 3 (by decide),
    (iterate_yields_indices peopleState.1 (by decide)).2.1 2 (by decide),
    (iterate_yields_indices peopleState.1 (by decide)).2.2.2 10 3 (by decide) (by decide)⟩

/-! ## `length <= capacity` -/

theorem allocate_ok_inv {L : Layout} {size : Nat} {s s1 : SoA} {h h1 : Heap}
    (hal : SoA.allocate L size s h = .ok (s1, h1)) :
    s1.m_n = s.m_n ∧ s.m_size < s1.m_size := by
  unfold SoA.allocate at hal
  dsimp only at hal
  generalize (if size = 0 then 32 else size) = sz at hal
  by_cases hgt : sz > s.m_size
  · by_cases ha : s.m_allocator = 0
    · simp [hgt, ha] at hal
    · by_cases hd : s.m_data = 0
      · simp only [hgt, not_true_eq_false, if_false, ha, hd, ne_eq, Except.ok.injEq,
          Prod.mk.injEq] at hal
        obtain ⟨rfl, _⟩ := hal
        exact ⟨rfl, hgt⟩
      · simp only [hgt, not_true_eq_false, if_false, ha, hd, ne_eq, not_false_eq_true,
          if_true] at hal
        split at hal
        · simp at hal
        · split at hal
          · simp at hal
          · simp only [Except.ok.injEq, Prod.mk.injEq] at hal
            obtain ⟨rfl, _⟩ := hal
            exact ⟨rfl, hgt⟩
  · simp [hgt] at hal

theorem add_ok_inv {L : Layout} {args : List (List Nat)} {s s1 : SoA} {h h1 : Heap} {r : Nat}
    (hadd : SoA.add L args s h = .ok (r, s1, h1)) :
    s1.m_n ≤ s.m_n + 1 ∧ (s.m_n = s.m_size → s.m_n < s1.m_size) ∧
      (s.m_n ≠ s.m_size → s1.m_size = s.m_size) := by
  unfold SoA.add at hadd
  by_cases hfull : s.m_n = s.m_size
  · rw [if_pos hfull] at hadd
    cases hal : SoA.allocate L (s.m_size * 2 % sizeMod) s h with
    | error e => simp [hal] at hadd
    | ok r1 =>
      obtain ⟨s2, h2⟩ := r1
      obtain ⟨hn2, hsz2⟩ := allocate_ok_inv hal
      simp only [hal] at hadd
      split at hadd
      · simp at hadd
      · simp only [Except.ok.injEq, Prod.mk.injEq] at hadd
        obtain ⟨_, rfl, _⟩ := hadd
        simp only
        have := Nat.mod_le (s2.m_n + 1) sizeMod
        refine ⟨by omega, fun _ => by omega, fun hne => absurd hfull hne⟩
  · rw [if_neg hfull] at hadd
    simp only at hadd
    split at hadd
    · simp at hadd
    · simp only [Except.ok.injEq, Prod.mk.injEq] at hadd
      obtain ⟨_, rfl, _⟩ := hadd
      have := Nat.mod_le (s.m_n + 1) sizeMod
      exact ⟨this, fun hf => absurd hf hfull, fun _ => rfl⟩

theorem remove_ok_inv {L : Layout} {index : Nat} {s s1 : SoA} {h h1 : Heap}
    (hrm : SoA.remove L index s h = .ok (s1, h1)) : s1 = s ∧ index < s.m_n := by
  unfold SoA.remove at hrm
  by_cases hidx : index < s.m_n
  · simp only [hidx, not_true_eq_false, if_false] at hrm
    split at hrm
    · simp at hrm
    · split at hrm
      · simp at hrm
      · split at hrm
        · simp at hrm
        · simp only [Except.ok.injEq, Prod.mk.injEq] at hrm
          exact ⟨hrm.1.symm, hidx⟩
  · simp [hidx] at hrm

/-- Every call that returns keeps `length <= capacity`. -/
theorem step_le {L : Layout} {op : Op} {s s1 : SoA} {h h1 : Heap}
    (hle : s.m_n ≤ s.m_size) (hstep : op.step L s h = .ok (s1, h1)) :
    s1.m_n ≤ s1.m_size := by
  cases op with
  | allocate size =>
    obtain ⟨a, b⟩ := allocate_ok_inv (show SoA.allocate L size s h = .ok (s1, h1) from hstep)
    omega
  | add args =>
    simp only [Op.step] at hstep
    cases hadd : SoA.add L args s h with
    | error e => simp [hadd] at hstep
    | ok r =>
      obtain ⟨r0, s2, h2⟩ := r
      simp only [hadd, Except.ok.injEq, Prod.mk.injEq] at hstep
      obtain ⟨rfl, _⟩ := hstep
      obtain ⟨a, b, c⟩ := add_ok_inv hadd
      by_cases hfull : s.m_n = s.m_size
      · have := b hfull; omega
      · have := c hfull; omega
  | remove index =>
    obtain ⟨a, _⟩ := remove_ok_inv (show SoA.remove L index s h = .ok (s1, h1) from hstep)
    rw [a]; exact hle

theorem runOps_le (L : Layout) (ops : List Op) :
    ∀ (s s1 : SoA) (h h1 : Heap), s.m_n ≤ s.m_size → runOps L ops s h = .ok (s1, h1) →
      s1.m_n ≤ s1.m_size := by
  induction ops with
  | nil =>
    intro s s1 h h1 hle hrun
    simp only [runOps, Except.ok.injEq, Prod.mk.injEq] at hrun
    rw [← hrun.1]; exact hle
  | cons op rest ih =>
    intro s s1 h h1 hle hrun
    simp only [runOps] at hrun
    cases hstep : op.step L s h with
    | error e => simp [hstep] at hrun
    | ok r =>
      obtain ⟨s2, h2⟩ := r
      simp only [hstep] at hrun
      exact ih s2 s1 h2 h1 (step_le hle hstep) hrun

/-- C9: in every state reached from a new container by `allocate`, `add` and
`remove` calls that return, `length <= capacity` (and `0 <= length`, lengths
being natural numbers); and each of the three calls, from any state with
`length <= capacity`, returns a state with `length <= capacity`. -/
theorem length_le_capacity (L : Layout) (allocator : Nat) (h0 : Heap) (ops : List Op)
    (s : SoA) (h : Heap) (hrun : runOps L ops (SoA.new allocator) h0 = .ok (s, h)) :
    (0 ≤ (SoA.end_ s).i ∧ (SoA.end_ s).i ≤ s.m_size) ∧
    ∀ (op : Op) (t t1 : SoA) (g g1 : Heap), t.m_n ≤ t.m_size →
      op.step L t g = .ok (t1, g1) → t1.m_n ≤ t1.m_size :=
  ⟨⟨Nat.zero_le _, runOps_le L ops (SoA.new allocator) s h0 h (Nat.le_refl 0) hrun⟩,
    fun _ _ _ _ _ hle hstep => step_le hle hstep⟩

theorem length_le_capacity_witness :
    runOps mainLayout [.allocate 5, .add (person 0 strGandalf 2019), .remove 0]
        (SoA.new 1) heap0 = .ok (mixedState.1, mixedState.2) ∧
    (SoA.end_ mixedState.1).i = 1 ∧ mixedState.1.m_size = 5 ∧
    ((0 ≤ (SoA.end_ mixedState.1).i ∧ (SoA.end_ mixedState.1).i ≤ mixedState.1.m_size) ∧
      ∀ (op : Op) (t t1 : SoA) (g g1 : Heap), t.m_n ≤ t.m_size →
        op.step mainLayout t g = .ok (t1, g1) → t1.m_n ≤ t1.m_size) :=
  ⟨rfl, by decide, by decide,
    length_le_capacity mainLayout 1 heap0
      [.allocate 5, .add (person 0 strGandalf 2019), .remove 0] mixedState.1 mixedState.2 rfl⟩

/-! ## The destructor -/

theorem dtorEvents_succ (k n : Nat) :
    dtorEvents k (n + 1) =
      dtorEvents k n ++ (List.range k).map fun array_i => Event.dtor array_i n := by
  simp [dtorEvents, List.range_succ, List.flatMap_append, List.flatMap_singleton]

/-- The destructor calls for one index. -/
theorem destroy_fields (k i : Nat) (h : Heap) :
    static_for 0 k (fun array_i (h2 : Heap) =>
        Except.ok { h2 with log := h2.log ++ [Event.dtor array_i i] }) h =
      .ok { h with log := h.log ++ (List.range k).map fun array_i => Event.dtor array_i i } := by
  obtain ⟨h1, hrun, hP⟩ := static_for_rule
    (fun array_i (h2 : Heap) =>
      (Except.ok { h2 with log := h2.log ++ [Event.dtor array_i i] } : Except Err Heap))
    (fun a h2 => h2 =
      { h with log := h.log ++ (List.range a).map fun array_i => Event.dtor array_i i })
    k h (by simp)
    (by
      intro a h2 _ hP
      refine ⟨_, rfl, ?_⟩
      rw [hP]
      simp [List.range_succ])
  rw [hrun, hP]

/-- What `~SoA()` does on a container that holds a live block: it runs the
field destructors for every index below the capacity `m_size`, then releases
the block. -/
theorem destroy_spec (L : Layout) (s : SoA) (h : Heap) (b : Block) (hpos : 0 < s.m_size)
    (halloc : s.m_allocator ≠ 0) (hd : s.m_data ≠ 0) (hb : h.blocks s.m_data = some b) :
    ∃ h1, SoA.destroy L s h = .ok h1 ∧
      h1.log = h.log ++ dtorEvents L.kNumArrays s.m_size ++ [Event.dealloc s.m_data] ∧
      h1.blocks s.m_data = none := by
  obtain ⟨h3, hrun, hP⟩ := static_for_loop_rule
    (fun i (h1 : Heap) =>
      static_for 0 L.kNumArrays (fun array_i (h2 : Heap) =>
        (Except.ok { h2 with log := h2.log ++ [Event.dtor array_i i] } : Except Err Heap)) h1)
    (fun i h1 => h1 = { h with log := h.log ++ dtorEvents L.kNumArrays i })
    s.m_size 0 h (by simp [dtorEvents])
    (by
      intro i h1 _ _ hP
      refine ⟨_, destroy_fields L.kNumArrays i h1, ?_⟩
      rw [hP]
      simp [dtorEvents_succ])
  simp only [Nat.zero_add] at hP
  have hb3 : h3.blocks s.m_data = some b := by rw [hP]; exact hb
  refine ⟨{ h3 with
            blocks := fun q => if q = s.m_data then none else h3.blocks q
            log := h3.log ++ [Event.dealloc s.m_data] }, ?_, ?_, ?_⟩
  · unfold SoA.destroy
    simp only [gt_iff_lt, hpos, if_true, hrun, halloc, if_false]
    simp [Mallocator.deallocate, hd, hb3]
  · simp [hP]
  · simp

set_option maxRecDepth 20000

/-- C10: the destructor on the container of `main` after its three `add`
calls (length 3, capacity 32) runs 32 * 3 = 96 field destructors, not 3 * 3:
among them the one for field 0 at index 3 and the one for field 2 at index
31, both past the length.  The loop runs to the capacity `m_size`, not to the
length `m_n`. -/
theorem destroy_destructs_past_length :
    (SoA.end_ peopleState.1).i = 3 ∧ peopleState.1.m_size = 32 ∧
    (match SoA.destroy mainLayout peopleState.1 peopleState.2 with
      | .ok h1 =>
        some ((dtorCalls h1.log).length, decide ((0, 3) ∈ dtorCalls h1.log),
          decide ((2, 31) ∈ dtorCalls h1.log), h1.log.getLast?)
      | .error _ => none) = some (96, true, true, some (Event.dealloc 1)) :=
  ⟨rfl, rfl, rfl⟩

/-! ## The layout of the sub-arrays -/

/-- C16: `get_array<i>(data, c)` points into the block `data` at offset `c`
times the sum of the sizes of the fields before `i`: sub-array 0 starts at
offset 0, and sub-array `i + 1` starts where the `c` elements of sub-array
`i` end, with nothing in between. -/
theorem get_array_is_packed (L : Layout) (data c i : Nat) :
    SoA.get_array L i data c = ⟨data, c * (L.sizes.take i).sum⟩ ∧
    SoA.get_array L 0 data c = ⟨data, 0⟩ ∧
    SoA.get_array L (i + 1) data c =
      ⟨data, (SoA.get_array L i data c).off + c * L.sizeofNth i⟩ := by
  refine ⟨get_array_eq L i data c, rfl, ?_⟩
  rw [get_array_eq L (i + 1), get_array_eq L i, sizeBefore_succ, Nat.mul_add]

theorem pow_two_dvd_32 {align e : Nat} (hpow : align = 2 ^ e) (hle : align ≤ 32) :
    align ∣ 32 := by
  have he : e ≤ 5 := by
    by_contra hgt
    have := Nat.pow_le_pow_right (show 0 < 2 by decide) (show 6 ≤ e by omega)
    omega
  rw [hpow, show (32 : Nat) = 2 ^ 5 from rfl]
  exact Nat.pow_dvd_pow 2 he

/-- C20: with a capacity `32 * 2 ^ j` and alignments that are powers of two
no greater than 32, the offset at which `get_array` places sub-array `i` is a
multiple of the alignment of field `i`. -/
theorem subarray_offsets_aligned (L : Layout) (aligns : List Nat) (data j : Nat)
    (hal : ∀ a ∈ aligns, (∃ e, a = 2 ^ e) ∧ a ≤ 32) :
    ∀ i a, aligns[i]? = some a → a ∣ (SoA.get_array L i data (32 * 2 ^ j)).off := by
  intro i a hia
  obtain ⟨⟨e, he⟩, hle⟩ := hal a (List.getElem?_mem hia)
  rw [get_array_off, Nat.mul_assoc]
  exact Dvd.dvd.mul_right (pow_two_dvd_32 he hle) _

theorem subarray_offsets_aligned_witness :
    (∀ a ∈ [8, 8, 4], (∃ e, a = 2 ^ e) ∧ a ≤ 32) ∧
    ∀ i a, [8, 8, 4][i]? = some a → a ∣ (SoA.get_array mainLayout i 1 (32 * 2 ^ 1)).off :=
  have hal : ∀ a ∈ [8, 8, 4], (∃ e, a = 2 ^ e) ∧ a ≤ 32 := by
    intro a ha
    simp only [List.mem_cons, List.mem_singleton, List.not_mem_nil, or_false] at ha
    rcases ha with rfl | rfl | rfl
    · exact ⟨⟨3, rfl⟩, by decide⟩
    · exact ⟨⟨3, rfl⟩, by decide⟩
    · exact ⟨⟨2, rfl⟩, by decide⟩
  ⟨hal, subarray_offsets_aligned mainLayout [8, 8, 4] 1 1 hal⟩

/-! ## Earlier elements under `add` -/

/-- A run of `add` calls stores its argument tuples at consecutive indices and
keeps the elements that were there. -/
theorem runAdds_reads (L : Layout) (hL : L.WF) (as : List (List (List Nat))) :
    ∀ (s : SoA) (h : Heap), Inv L s h → (∀ a ∈ as, WellTyped L a) →
      s.m_size ≤ 2 * s.m_n + 32 →
      (2 * (s.m_n + as.length) + 32) * L.tupleSize ≤ h.limit →
      ∃ s1 h1, runAdds L as s h = .ok (s1, h1) ∧ s1.m_n = s.m_n + as.length ∧
        (∀ i a, i < L.kNumArrays → a < s.m_n → SoA.read L s1 h1 i a = SoA.read L s h i a) ∧
        (∀ j i, j < as.length → i < L.kNumArrays →
          SoA.read L s1 h1 i (s.m_n + j) = .ok ((as.getD j []).getD i [])) := by
  induction as with
  | nil =>
    intro s h _ _ _ _
    exact ⟨s, h, rfl, rfl, fun _ _ _ _ => rfl, fun j _ hj _ => absurd hj (Nat.not_lt_zero j)⟩
  | cons a rest ih =>
    intro s h hinv hty hcap hfit
    have hlen : (a :: rest).length = rest.length + 1 := rfl
    rw [hlen] at hfit
    obtain ⟨s1, h1, hadd, hn1, hsz1, _, hinv1, hnew, hkeep, hlim1, _, _⟩ :=
      add_spec L s h a hL hinv (hty a (List.mem_cons_self _ _)) (fun hfull => by
        have hgrow : growCap s.m_size ≤ 2 * s.m_n + 32 := by
          unfold growCap; split <;> omega
        have := Nat.mul_le_mul_right L.tupleSize hgrow
        have h2 : (2 * s.m_n + 32) * L.tupleSize ≤ (2 * (s.m_n + (rest.length + 1)) + 32) *
            L.tupleSize := Nat.mul_le_mul_right _ (by omega)
        omega)
    have hcap1 : s1.m_size ≤ 2 * s1.m_n + 32 := by
      rw [hsz1, hn1]
      split
      · unfold growCap; split <;> omega
      · omega
    obtain ⟨s2, h2, hrun, hn2, hkeep2, hnew2⟩ :=
      ih s1 h1 hinv1 (fun x hx => hty x (List.mem_cons_of_mem _ hx)) hcap1 (by
        rw [hlim1, hn1]
        have : s.m_n + 1 + rest.length = s.m_n + (rest.length + 1) := by omega
        rw [this]; exact hfit)
    refine ⟨s2, h2, ?_, ?_, ?_, ?_⟩
    · simp [runAdds, hadd, hrun]
    · rw [hn2, hn1, hlen]; omega
    · intro i b hi hb
      rw [hkeep2 i b hi (by omega)]
      exact hkeep i b hi hb
    · intro j i hj hi
      cases j with
      | zero =>
        rw [Nat.add_zero, hkeep2 i s.m_n hi (by omega)]
        exact hnew i hi
      | succ j1 =>
        have hj1 : j1 < rest.length := by rw [hlen] at hj; omega
        have := hnew2 j1 i hj1 hi
        rw [hn1] at this
        have e : s.m_n + (j1 + 1) = s.m_n + 1 + j1 := by omega
        rw [e, this]
        rfl

/-- C17: on a consistent container `add` succeeds and every field of every
element below the pre-call length reads the value it read before, with or
without a growth; and after the calls `add(a_0)`, ..., `add(a_{k-1})` on a
new container every field `i` of element `j < k` reads the value `a_j` gave
for it. -/
theorem add_keeps_earlier_elements (L : Layout) (hL : L.WF) :
    (∀ (s : SoA) (h : Heap) (args : List (List Nat)), Inv L s h → WellTyped L args →
      (s.m_n = s.m_size → growCap s.m_size * L.tupleSize ≤ h.limit) →
      ∃ r s1 h1, SoA.add L args s h = .ok (r, s1, h1) ∧
        (s.m_n = s.m_size → s.m_size < s1.m_size) ∧
        ∀ i a, i < L.kNumArrays → a < (SoA.end_ s).i →
          ∃ v, SoA.read L s h i a = .ok v ∧ SoA.read L s1 h1 i a = .ok v) ∧
    (∀ (allocator : Nat) (h0 : Heap) (as : List (List (List Nat))), h0.WF → allocator ≠ 0 →
      (∀ a ∈ as, WellTyped L a) → (2 * as.length + 32) * L.tupleSize ≤ h0.limit →
      ∃ s h, runAdds L as (SoA.new allocator) h0 = .ok (s, h) ∧ (SoA.end_ s).i = as.length ∧
        ∀ j i, j < as.length → i < L.kNumArrays →
          SoA.read L s h i j = .ok ((as.getD j []).getD i [])) := by
  constructor
  · intro s h args hinv hargs hfit
    obtain ⟨s1, h1, hadd, _, hsz, _, _, _, hkeep, _⟩ := add_spec L s h args hL hinv hargs hfit
    refine ⟨s.m_n, s1, h1, hadd, ?_, fun i a hi ha => ?_⟩
    · intro hfull
      rw [hsz, if_pos hfull]
      exact growCap_pos _
    · have ha1 : a < s.m_n := ha
      have hle := hinv.2.2.1
      obtain ⟨v, hv, _⟩ := read_ok L s h hinv i a (by omega)
      exact ⟨v, hv, (hkeep i a hi ha1).trans hv⟩
  · intro allocator h0 as hh0 halloc has hfit
    obtain ⟨s, h, hrun, hn, _, hnew⟩ := runAdds_reads L hL as (SoA.new allocator) h0
      (new_inv L allocator h0 hh0 halloc) has (by simp [SoA.new])
      (by simpa [SoA.new] using hfit)
    refine ⟨s, h, hrun, by simpa [SoA.new, SoA.end_] using hn, fun j i hj hi => ?_⟩
    have := hnew j i hj hi
    simpa [SoA.new] using this

theorem add_keeps_earlier_elements_witness :
    ∃ s h, runAdds mainLayout people (SoA.new 1) heap0 = .ok (s, h) ∧
      (SoA.end_ s).i = people.length ∧
      ∀ j i, j < people.length → i < mainLayout.kNumArrays →
        SoA.read mainLayout s h i j = .ok ((people.getD j []).getD i []) :=
  (add_keeps_earlier_elements mainLayout mainLayout_wf).2 1 heap0 people heap0_wf (by decide)
    (by decide) (by decide)

/-! ## Which errors a call can end in -/

theorem load_err {h : Heap} {p : Ptr} {n : Nat} {e : Err} (hl : h.load p n = .error e) :
    e = .ub := by
  unfold Heap.load at hl
  split at hl
  · simp at hl; exact hl.symm
  · split at hl
    · simp at hl; exact hl.symm
    · split at hl
      · simp at hl
      · simp at hl; exact hl.symm

theorem store_err {h : Heap} {p : Ptr} {v : List Nat} {e : Err} (hst : h.store p v = .error e) :
    e = .ub := by
  unfold Heap.store at hst
  split at hst
  · simp at hst; exact hst.symm
  · split at hst
    · simp at hst; exact hst.symm
    · split at hst
      · simp at hst
      · simp at hst; exact hst.symm

theorem memcpy_err {h : Heap} {dst src : Ptr} {n : Nat} {e : Err}
    (hm : memcpy h dst src n = .error e) : e = .ub := by
  unfold memcpy at hm
  cases hl : h.load src n with
  | error e1 =>
    simp only [hl, Except.error.injEq] at hm
    rw [← hm]; exact load_err hl
  | ok v =>
    simp only [hl] at hm
    exact store_err hm

theorem deallocate_err {h : Heap} {p : Nat} {e : Err}
    (hd : Mallocator.deallocate h p = .error e) : e = .ub := by
  unfold Mallocator.deallocate at hd
  split at hd
  · simp at hd
  · split at hd
    · simp at hd; exact hd.symm
    · simp at hd

/-- A loop whose body can only fail with undefined behaviour can only fail
with undefined behaviour. -/
theorem static_for_loop_err {σ : Type} (f : Nat → σ → Except Err σ)
    (hf : ∀ i st e, f i st = .error e → e = .ub) :
    ∀ (n First : Nat) (st : σ) (e : Err), static_for_loop f n First st = .error e →
      e = .ub := by
  intro n
  induction n with
  | zero => intro First st e h; simp [static_for_loop] at h
  | succ n ih =>
    intro First st e h
    simp only [static_for_loop] at h
    cases hfi : f First st with
    | error e1 =>
      simp only [hfi, Except.error.injEq] at h
      rw [← h]; exact hf First st e1 hfi
    | ok st1 =>
      simp only [hfi] at h
      exact ih (First + 1) st1 e h

/-- A loop that ends keeps every property its body keeps. -/
theorem static_for_loop_keeps {σ : Type} (f : Nat → σ → Except Err σ) (P : σ → Prop)
    (hf : ∀ i st st1, P st → f i st = .ok st1 → P st1) :
    ∀ (n First : Nat) (st st1 : σ), P st → static_for_loop f n First st = .ok st1 →
      P st1 := by
  intro n
  induction n with
  | zero =>
    intro First st st1 hP h
    simp only [static_for_loop, Except.ok.injEq] at h
    rw [← h]; exact hP
  | succ n ih =>
    intro First st st1 hP h
    simp only [static_for_loop] at h
    cases hfi : f First st with
    | error e1 => simp [hfi] at h
    | ok st2 =>
      simp only [hfi] at h
      exact ih (First + 1) st2 st1 (hf First st st2 hP hfi) h

/-- Past its two assertions `allocate` can only fail with undefined behaviour. -/
theorem allocate_err (L : Layout) (size : Nat) (s : SoA) (h : Heap) (e : Err)
    (hgt : s.m_size < (if size = 0 then 32 else size)) (halloc : s.m_allocator ≠ 0)
    (hal : SoA.allocate L size s h = .error e) : e = .ub := by
  unfold SoA.allocate at hal
  dsimp only at hal
  generalize (if size = 0 then 32 else size) = sz at hal hgt
  have hgt2 : sz > s.m_size := hgt
  by_cases hd : s.m_data = 0
  · simp [hgt2, halloc, hd] at hal
  · simp only [hgt2, not_true_eq_false, if_false, halloc, hd, ne_eq, not_false_eq_true,
      if_true] at hal
    split at hal
    · rename_i e1 hloop
      simp only [Except.error.injEq] at hal
      rw [← hal]
      exact static_for_loop_err _ (fun i st e2 h2 => memcpy_err h2) _ _ _ _ hloop
    · split at hal
      · rename_i e1 hfree
        simp only [Except.error.injEq] at hal
        rw [← hal]
        exact deallocate_err hfree
      · simp at hal

theorem allocate_assert_of (L : Layout) (size : Nat) (s : SoA) (h : Heap)
    (hle : (if size = 0 then 32 else size) ≤ s.m_size ∨ s.m_allocator = 0) :
    SoA.allocate L size s h = .error .assert := by
  unfold SoA.allocate
  dsimp only
  generalize (if size = 0 then 32 else size) = sz at hle
  by_cases hgt : sz > s.m_size
  · have ha : s.m_allocator = 0 := by
      rcases hle with h1 | h1
      · omega
      · exact h1
    simp [hgt, ha]
  · simp [hgt]

/-- The index `add` returns is the length before the call. -/
theorem add_ok_index {L : Layout} {args : List (List Nat)} {s s1 : SoA} {h h1 : Heap} {r : Nat}
    (hadd : SoA.add L args s h = .ok (r, s1, h1)) : r = s.m_n := by
  unfold SoA.add at hadd
  by_cases hfull : s.m_n = s.m_size
  · rw [if_pos hfull] at hadd
    cases hal : SoA.allocate L (s.m_size * 2 % sizeMod) s h with
    | error e => simp [hal] at hadd
    | ok r1 =>
      obtain ⟨s2, h2⟩ := r1
      obtain ⟨hn2, _⟩ := allocate_ok_inv hal
      simp only [hal] at hadd
      split at hadd
      · simp at hadd
      · simp only [Except.ok.injEq, Prod.mk.injEq] at hadd
        rw [← hadd.1, hn2]
  · rw [if_neg hfull] at hadd
    simp only at hadd
    split at hadd
    · simp at hadd
    · simp only [Except.ok.injEq, Prod.mk.injEq] at hadd
      exact hadd.1.symm

/-- The request of a full container below `2 ^ 63` slots does not wrap. -/
theorem growth_request (c : Nat) (hc : c < 2 ^ 63) :
    (if c * 2 % sizeMod = 0 then 32 else c * 2 % sizeMod) = growCap c := by
  have hm : c * 2 % sizeMod = c * 2 := Nat.mod_eq_of_lt (by unfold sizeMod; omega)
  rw [hm]
  unfold growCap
  by_cases hz : c = 0
  · simp [hz]
  · have : c * 2 ≠ 0 := by omega
    simp [hz, this, Nat.mul_comm]

/-- C19: when `add` finds the container full, with a capacity below `2 ^ 63`
and an allocator bound, the size it passes to `allocate` (32 for an empty
container, twice the capacity otherwise, no wrap-around) is above the
capacity, so `add` does not end in a failed assertion; and when `add`
returns, the slot it wrote, the old length, is below the new capacity. -/
theorem add_growth_passes_assertion (L : Layout) (args : List (List Nat)) (s : SoA)
    (h : Heap) (hfull : s.m_n = s.m_size) (hcap : s.m_size < 2 ^ 63)
    (halloc : s.m_allocator ≠ 0) :
    (s.m_size < (if s.m_size * 2 % sizeMod = 0 then 32 else s.m_size * 2 % sizeMod)) ∧
    (s.m_size = 0 → (if s.m_size * 2 % sizeMod = 0 then 32 else s.m_size * 2 % sizeMod) = 32) ∧
    (s.m_size ≠ 0 →
      (if s.m_size * 2 % sizeMod = 0 then 32 else s.m_size * 2 % sizeMod) = 2 * s.m_size) ∧
    SoA.add L args s h ≠ .error .assert ∧
    ∀ r s1 h1, SoA.add L args s h = .ok (r, s1, h1) →
      r = (SoA.end_ s).i ∧ r < s1.m_size := by
  have hreq := growth_request s.m_size hcap
  have hpos := growCap_pos s.m_size
  refine ⟨by rw [hreq]; exact hpos, ?_, ?_, ?_, ?_⟩
  · intro hz; rw [hreq]; simp [growCap, hz]
  · intro hz; rw [hreq]; simp [growCap, hz]
  · intro herr
    unfold SoA.add at herr
    rw [if_pos hfull] at herr
    cases hal : SoA.allocate L (s.m_size * 2 % sizeMod) s h with
    | error e =>
      have := allocate_err L _ s h e (by rw [hreq]; exact hpos) halloc hal
      simp only [hal, Except.error.injEq] at herr
      rw [this] at herr
      exact absurd herr (by decide)
    | ok r1 =>
      obtain ⟨s2, h2⟩ := r1
      simp only [hal] at herr
      split at herr
      · rename_i e1 hloop
        have := static_for_loop_err _ (fun i st e2 h2 => store_err h2) _ _ _ _ hloop
        simp only [Except.error.injEq] at herr
        rw [this] at herr
        exact absurd herr (by decide)
      · simp at herr
  · intro r s1 h1 hadd
    have hr := add_ok_index hadd
    obtain ⟨_, hlt, _⟩ := add_ok_inv hadd
    exact ⟨hr, by rw [hr]; exact hlt hfull⟩

theorem add_growth_passes_assertion_witness :
    filledState.1.m_n = filledState.1.m_size ∧ filledState.1.m_size < 2 ^ 63 ∧
    filledState.1.m_allocator ≠ 0 ∧
    (match SoA.add ⟨[1], 1⟩ [[15]] filledState.1 filledState.2 with
      | .ok (r, s1, _) => some (r, s1.m_size)
      | .error _ => none) = some (5, 10) ∧
    SoA.add ⟨[1], 1⟩ [[15]] filledState.1 filledState.2 ≠ .error .assert ∧
    ∀ r s1 h1, SoA.add ⟨[1], 1⟩ [[15]] filledState.1 filledState.2 = .ok (r, s1, h1) →
      r = (SoA.end_ filledState.1).i ∧ r < s1.m_size :=
  ⟨by decide, by decide, by decide, by decide,
    (add_growth_passes_assertion ⟨[1], 1⟩ [[15]] filledState.1 filledState.2 (by decide)
      (by decide) (by decide)).2.2.2⟩

/-! ## The assertions and the request of `allocate` -/

/-- C14, as stated, fails: on a container of capacity 5 a request of 0 is not
rejected; it is replaced by 32 and the container grows to 32. -/
theorem allocate_zero_on_small_capacity_counterexample :
    filledState.1.m_size = 5 ∧
    (match SoA.allocate ⟨[1], 1⟩ 0 filledState.1 filledState.2 with
      | .ok (s1, _) => some s1.m_size
      | .error _ => none) = some 32 := by
  decide

/-- C14, amended: `allocate(size)` ends in a failed assertion, before any
state changes, exactly when the request it works with, 32 for a request of 0
and `size` otherwise, is not above the capacity, or no allocator is bound; a
request of 0 is thus rejected exactly when the capacity is at least 32. -/
theorem allocate_assertion_iff (L : Layout) (size : Nat) (s : SoA) (h : Heap) :
    (SoA.allocate L size s h = .error .assert ↔
      ((if size = 0 then 32 else size) ≤ s.m_size ∨ s.m_allocator = 0)) ∧
    (SoA.allocate L 0 s h = .error .assert ↔ (32 ≤ s.m_size ∨ s.m_allocator = 0)) := by
  have key : ∀ sz, SoA.allocate L sz s h = .error .assert ↔
      ((if sz = 0 then 32 else sz) ≤ s.m_size ∨ s.m_allocator = 0) := by
    intro sz
    constructor
    · intro herr
      by_contra hno
      have h1 : s.m_size < (if sz = 0 then 32 else sz) := by
        by_contra hle
        exact hno (Or.inl (by omega))
      have h2 : s.m_allocator ≠ 0 := fun h0 => hno (Or.inr h0)
      have := allocate_err L sz s h _ h1 h2 herr
      exact absurd this (by decide)
    · exact allocate_assert_of L sz s h
  exact ⟨key size, by simpa using key 0⟩

/-- C15, as stated, fails: for the field list of `main` and capacity 32 the
request is 32 * 24 = 768 bytes, 24 being the size of the tuple, not
32 * (8 + 8 + 4) = 640. -/
theorem allocate_request_is_not_sum_counterexample :
    (match SoA.allocate mainLayout 32 (SoA.new 1) heap0 with
      | .ok (_, h1) => some (allocBytes h1.log)
      | .error _ => none) = some [768] ∧
    (768 : Nat) ≠ 32 * mainLayout.sizes.sum := by
  decide

theorem malloc_log (h : Heap) (bytes : Nat) :
    (Mallocator.allocate h bytes).2.log =
      h.log ++ [Event.alloc bytes (Mallocator.allocate h bytes).1] := by
  unfold Mallocator.allocate
  split <;> rfl

/-- What an `allocate` that returned logged, and the capacity it set, for
every field list, container and allocator. -/
theorem allocate_ok_log {L : Layout} {size : Nat} {s s1 : SoA} {h h1 : Heap}
    (hal : SoA.allocate L size s h = .ok (s1, h1)) :
    s1.m_size = (if size = 0 then 32 else size) ∧
    ∃ p, h1.log = h.log ++
      Event.alloc ((if size = 0 then 32 else size) * L.tupleSize % sizeMod) p ::
        (if s.m_data = 0 then [] else [Event.dealloc s.m_data]) := by
  unfold SoA.allocate at hal
  dsimp only at hal
  generalize (if size = 0 then 32 else size) = sz at hal
  by_cases hgt : sz > s.m_size
  · by_cases ha : s.m_allocator = 0
    · simp [hgt, ha] at hal
    · by_cases hd : s.m_data = 0
      · simp only [hgt, not_true_eq_false, if_false, ha, hd, ne_eq, Except.ok.injEq,
          Prod.mk.injEq] at hal
        obtain ⟨rfl, rfl⟩ := hal
        refine ⟨rfl, (Mallocator.allocate h (sz * L.tupleSize % sizeMod)).1, ?_⟩
        rw [malloc_log]
        simp [hd]
      · simp only [hgt, not_true_eq_false, if_false, ha, hd, ne_eq, not_false_eq_true,
          if_true] at hal
        split at hal
        · simp at hal
        · rename_i h2 hloop
          have hss : SameShape (Mallocator.allocate h (sz * L.tupleSize % sizeMod)).2 h2 :=
            static_for_loop_keeps _ (fun st => SameShape _ st)
              (fun i st st1 hP hm => hP.trans (memcpy_sameShape hm)) _ _ _ _
              (SameShape.refl _) hloop
          split at hal
          · simp at hal
          · rename_i h3 hfree
            simp only [Except.ok.injEq, Prod.mk.injEq] at hal
            obtain ⟨rfl, rfl⟩ := hal
            unfold Mallocator.deallocate at hfree
            simp only [hd, if_false] at hfree
            cases hb2 : h2.blocks s.m_data with
            | none => simp [hb2] at hfree
            | some b2 =>
              simp only [hb2, Except.ok.injEq] at hfree
              subst hfree
              refine ⟨rfl, (Mallocator.allocate h (sz * L.tupleSize % sizeMod)).1, ?_⟩
              simp [hss.2.2.2.1, malloc_log, hd]
  · simp [hgt] at hal

/-- C15, amended: for every field list, container and allocator, an
`allocate` that returns has made exactly one request to the allocator, of
`capacity * sizeof(std::tuple<Elements...>)` bytes modulo `2 ^ 64`, where
`capacity` is the capacity it set; and on a container without a storage
block `allocate` does return whenever its assertions pass. -/
theorem allocate_request_is_tuple_size (L : Layout) (c : Nat) (s : SoA) (h : Heap) :
    (∀ s1 h1, SoA.allocate L c s h = .ok (s1, h1) →
      s1.m_size = (if c = 0 then 32 else c) ∧
      allocBytes h1.log = allocBytes h.log ++ [s1.m_size * L.tupleSize % sizeMod]) ∧
    (s.m_data = 0 → s.m_size < (if c = 0 then 32 else c) → s.m_allocator ≠ 0 →
      ∃ s1 h1, SoA.allocate L c s h = .ok (s1, h1) ∧
        allocBytes h1.log = allocBytes h.log ++ [s1.m_size * L.tupleSize % sizeMod]) := by
  have key : ∀ s1 h1, SoA.allocate L c s h = .ok (s1, h1) →
      s1.m_size = (if c = 0 then 32 else c) ∧
      allocBytes h1.log = allocBytes h.log ++ [s1.m_size * L.tupleSize % sizeMod] := by
    intro s1 h1 hal
    obtain ⟨hsz, p, hlog⟩ := allocate_ok_log hal
    refine ⟨hsz, ?_⟩
    rw [hlog, allocBytes_append, allocBytes_growth, hsz]
  refine ⟨key, fun hd hgt halloc => ?_⟩
  have hret : ∃ r, SoA.allocate L c s h = .ok r := by
    unfold SoA.allocate
    dsimp only
    generalize (if c = 0 then 32 else c) = sz at hgt
    have hgt2 : sz > s.m_size := hgt
    simp [hgt2, halloc, hd]
  obtain ⟨⟨s1, h1⟩, hal⟩ := hret
  exact ⟨s1, h1, hal, (key s1 h1 hal).2⟩

theorem allocate_request_is_tuple_size_witness :
    (SoA.new 1).m_data = 0 ∧ (SoA.new 1).m_size < (if 32 = 0 then 32 else 32) ∧
    (SoA.new 1).m_allocator ≠ 0 ∧
    (∃ s1 h1, SoA.allocate mainLayout 32 (SoA.new 1) heap0 = .ok (s1, h1) ∧
      allocBytes h1.log = allocBytes heap0.log ++ [s1.m_size * mainLayout.tupleSize % sizeMod]) ∧
    (match SoA.allocate mainLayout 64 peopleState.1 peopleState.2 with
      | .ok (s1, h1) => some (s1.m_size, allocBytes h1.log)
      | .error _ => none) = some (64, [768, 1536]) :=
  ⟨rfl, by decide, by decide,
    (allocate_request_is_tuple_size mainLayout 32 (SoA.new 1) heap0).2 rfl (by decide)
      (by decide),
    by decide⟩

/-! ## Destruction of an empty container -/

/-- C11, as stated, fails: after `allocate(5)` on a new container the length
is 0 but the capacity is 5, and the destructor calls the allocator: the log
grows from the one `allocate` entry to 17 entries, the last one being the
`deallocate` of the block. -/
theorem empty_with_capacity_counterexample :
    (SoA.end_ reservedState.1).i = 0 ∧ reservedState.1.m_size = 5 ∧
    (match SoA.destroy mainLayout reservedState.1 reservedState.2 with
      | .ok h1 => some (h1.log.getLast?, (allocBytes h1.log).length, h1.log.length)
      | .error _ => none) = some (some (Event.dealloc 1), 1, 17) ∧
    reservedState.2.log.length = 1 := by
  decide

/-- C11, amended: in every state reached from a new container by `allocate`,
`add` and `remove` calls in which the capacity is 0, the length is 0 and the
destructor leaves the allocator and its log as they are: it makes no
allocator call. -/
theorem destroy_without_capacity (L : Layout) (allocator : Nat) (h0 : Heap) (ops : List Op)
    (s : SoA) (h : Heap) (hrun : runOps L ops (SoA.new allocator) h0 = .ok (s, h))
    (hcap : s.m_size = 0) :
    (SoA.end_ s).i = 0 ∧ SoA.destroy L s h = .ok h := by
  have hle := runOps_le L ops (SoA.new allocator) s h0 h (Nat.le_refl 0) hrun
  refine ⟨?_, ?_⟩
  · show s.m_n = 0
    omega
  · simp [SoA.destroy, hcap]

theorem destroy_without_capacity_witness :
    runOps mainLayout [] (SoA.new 1) heap0 = .ok (SoA.new 1, heap0) ∧
    (SoA.new 1).m_size = 0 ∧
    (SoA.end_ (SoA.new 1)).i = 0 ∧ SoA.destroy mainLayout (SoA.new 1) heap0 = .ok heap0 :=
  ⟨rfl, rfl, destroy_without_capacity mainLayout 1 heap0 [] (SoA.new 1) heap0 rfl rfl⟩

/-! ## An allocator that cannot serve the request -/

/-- C13, as stated, fails: with an allocator that cannot serve the 768 bytes
of `allocate(32)` the call does not fail; it returns normally, the capacity
is 32 instead of 0 and the storage pointer is null.  The first `add` on such
an allocator does not report a failure either: it writes through the null
pointer. -/
theorem allocate_failure_is_not_reported_counterexample :
    (match SoA.allocate mainLayout 32 (SoA.new 1) smallHeap with
      | .ok (s1, h1) => some (s1.m_size, s1.m_data, h1.log)
      | .error _ => none) = some (32, 0, [Event.alloc 768 0]) ∧
    (SoA.new 1).m_size = 0 ∧
    (match SoA.add mainLayout (person 0 strGandalf 2019) (SoA.new 1) smallHeap with
      | .ok _ => none
      | .error e => some e) = some Err.ub := by
  decide

/-- C13, amended: when the allocator cannot serve the request it returns a
null pointer and `allocate` reports no failure; on a container without a
storage block it returns normally, with the length, the allocator's blocks
and their contents as they were and nothing released, but with the capacity
set to the request and a null storage pointer. -/
theorem allocate_with_failing_allocator (L : Layout) (size : Nat) (s : SoA) (h : Heap)
    (hd : s.m_data = 0) (hgt : s.m_size < (if size = 0 then 32 else size))
    (halloc : s.m_allocator ≠ 0)
    (hfail : h.limit < (if size = 0 then 32 else size) * L.tupleSize % sizeMod) :
    SoA.allocate L size s h =
      .ok ({ s with m_data := 0, m_size := if size = 0 then 32 else size },
        { h with
          log := h.log ++
            [Event.alloc ((if size = 0 then 32 else size) * L.tupleSize % sizeMod) 0] }) := by
  unfold SoA.allocate
  dsimp only
  generalize (if size = 0 then 32 else size) = sz at hgt hfail
  have hgt2 : sz > s.m_size := hgt
  have hnot : ¬ (sz * L.tupleSize % sizeMod ≤ h.limit) := by omega
  simp [hgt2, halloc, hd, Mallocator.allocate, hnot]

theorem allocate_with_failing_allocator_witness :
    smallHeap.limit < (if 32 = 0 then 32 else 32) * mainLayout.tupleSize % sizeMod ∧
    SoA.allocate mainLayout 32 (SoA.new 1) smallHeap =
      .ok ({ SoA.new 1 with m_data := 0, m_size := if 32 = 0 then 32 else 32 },
        { smallHeap with
          log := smallHeap.log ++
            [Event.alloc ((if 32 = 0 then 32 else 32) * mainLayout.tupleSize % sizeMod) 0] }) :=
  ⟨by decide,
    allocate_with_failing_allocator mainLayout 32 (SoA.new 1) smallHeap rfl (by decide)
      (by decide) (by decide)⟩

theorem memcpy_null (h : Heap) (dst src : Ptr) (n : Nat) (hd : dst.base = 0) :
    memcpy h dst src n = .error .ub := by
  unfold memcpy
  cases hl : h.load src n with
  | error e => simp only [load_err hl]
  | ok v => simp [Heap.store, hd]

/-- With an allocator that cannot serve the request, `allocate` on a
container that holds a block and has at least one field copies through the
null pointer. -/
theorem allocate_null_copy_ub (L : Layout) (size : Nat) (s : SoA) (h : Heap)
    (hd : s.m_data ≠ 0) (hk : 0 < L.kNumArrays)
    (hgt : s.m_size < (if size = 0 then 32 else size)) (halloc : s.m_allocator ≠ 0)
    (hfail : h.limit < (if size = 0 then 32 else size) * L.tupleSize % sizeMod) :
    SoA.allocate L size s h = .error .ub := by
  unfold SoA.allocate
  dsimp only
  generalize (if size = 0 then 32 else size) = sz at hgt hfail
  have hgt2 : sz > s.m_size := hgt
  have hnot : ¬ (sz * L.tupleSize % sizeMod ≤ h.limit) := by omega
  obtain ⟨k, hk1⟩ : ∃ k, L.kNumArrays = k + 1 := ⟨L.kNumArrays - 1, by omega⟩
  simp only [hgt2, not_true_eq_false, if_false, halloc, hd, ne_eq, not_false_eq_true, if_true,
    Mallocator.allocate, hnot, static_for, hk1, Nat.sub_zero, static_for_loop]
  rw [memcpy_null _ _ _ _ (by rw [get_array_base])]

/-! ## Sub-arrays and the block -/

/-- C18, as stated, fails: for the field list of `main` and the capacity
`2 ^ 61` the request `c * 24` wraps to 0 bytes, so no sub-array lies inside
the block `allocate` requested, and the first write to field 0 at index 0
goes outside it. -/
theorem subarrays_outside_wrapped_block_counterexample :
    2305843009213693952 * mainLayout.tupleSize % sizeMod = 0 ∧
    (match SoA.allocate mainLayout 2305843009213693952 (SoA.new 1) heap0 with
      | .ok (s1, h1) =>
        some (s1.m_size, allocBytes h1.log,
          (match SoA.add mainLayout (person 0 strGandalf 2019) s1 h1 with
            | .ok _ => none
            | .error e => some e))
      | .error _ => none) = some (2305843009213693952, [0], some Err.ub) ∧
    ¬ ((SoA.get_array mainLayout 0 1 2305843009213693952).off +
        2305843009213693952 * mainLayout.sizeofNth 0 ≤ 0) := by
  decide

/-- C18, amended: when the tuple is at least as large as the sum of its
fields and `c * sizeof(std::tuple<Elements...>)` does not wrap, the request
is that many bytes, every sub-array lies inside them, each sub-array ends
before the next ones start, and on a container of capacity `c` a write to
field `i` at index `a < c` succeeds, is read back, and leaves every other
field and index below `c` as it was. -/
theorem subarrays_disjoint_inside_block (L : Layout) (hL : L.WF) (c data : Nat)
    (hc : c * L.tupleSize < sizeMod) :
    c * L.tupleSize % sizeMod = c * L.tupleSize ∧
    (∀ i, i < L.kNumArrays →
      (SoA.get_array L i data c).off + c * L.sizeofNth i ≤ c * L.tupleSize) ∧
    (∀ i j, i < j →
      (SoA.get_array L i data c).off + c * L.sizeofNth i ≤ (SoA.get_array L j data c).off) ∧
    ∀ (s : SoA) (h : Heap) (i a : Nat) (v : List Nat), Inv L s h → s.m_size = c →
      i < L.kNumArrays → a < c → v.length = L.sizeofNth i →
      ∃ h1, h.store (SoA.get L s i a) v = .ok h1 ∧ SoA.read L s h1 i a = .ok v ∧
        ∀ j b, b < c → (i ≠ j ∨ a ≠ b) → SoA.read L s h1 j b = SoA.read L s h j b := by
  have hend : ∀ i, (SoA.get_array L i data c).off + c * L.sizeofNth i =
      c * L.sizeBefore (i + 1) := by
    intro i
    rw [get_array_off, sizeBefore_succ, Nat.mul_add]
  refine ⟨Nat.mod_eq_of_lt hc, fun i _ => ?_, fun i j hij => ?_, ?_⟩
  · rw [hend]
    exact Nat.le_trans (Nat.mul_le_mul_left _ (sizeBefore_le_sum L (i + 1)))
      (Nat.mul_le_mul_left _ hL.2)
  · rw [hend, get_array_off]
    exact Nat.mul_le_mul_left _ (sizeBefore_mono L hij)
  · intro s h i a v hinv hsz _ ha hlen
    obtain ⟨_, _, _, _, hnull, hblk⟩ := hinv
    have ha1 : a < s.m_size := by omega
    have hd : s.m_data ≠ 0 := fun h0 => by have := hnull h0; omega
    obtain ⟨b, hb, hbsz⟩ := hblk hd
    have hcell := cell_end_le_total L s.m_size i a ha1
    obtain ⟨h1, hst⟩ := store_ok h (SoA.get L s i a) v b (by simp only [get_eq]; exact hd)
      (by simp only [get_eq]; exact hb) (by simp only [get_eq, hlen]; omega)
    refine ⟨h1, hst, ?_, fun j b1 hb1 hne => ?_⟩
    · unfold SoA.read
      rw [← hlen]
      exact load_store_same hst
    · have hdis := cell_disjoint L s.m_size j b1 i a (by omega) ha1 (by
        rcases hne with h1 | h1
        · exact Or.inl (Ne.symm h1)
        · exact Or.inr (Ne.symm h1))
      unfold SoA.read
      exact load_store_other hst _ _ (Or.inr (by simp only [get_eq, hlen]; omega))

theorem subarrays_disjoint_inside_block_witness :
    32 * mainLayout.tupleSize < sizeMod ∧
    32 * mainLayout.tupleSize % sizeMod = 32 * mainLayout.tupleSize ∧
    (∀ i, i < mainLayout.kNumArrays →
      (SoA.get_array mainLayout i 1 32).off + 32 * mainLayout.sizeofNth i ≤
        32 * mainLayout.tupleSize) ∧
    (∀ i j, i < j →
      (SoA.get_array mainLayout i 1 32).off + 32 * mainLayout.sizeofNth i ≤
        (SoA.get_array mainLayout j 1 32).off) ∧
    ∃ h1, peopleState.2.store (SoA.get mainLayout peopleState.1 1 7) (bytesOf 8 strFrodo) =
        .ok h1 ∧
      SoA.read mainLayout peopleState.1 h1 1 7 = .ok (bytesOf 8 strFrodo) ∧
      ∀ j b, b < 32 → (1 ≠ j ∨ 7 ≠ b) →
        SoA.read mainLayout peopleState.1 h1 j b =
          SoA.read mainLayout peopleState.1 peopleState.2 j b :=
  have hw := subarrays_disjoint_inside_block mainLayout mainLayout_wf 32 1 (by decide)
  ⟨by decide, hw.1, hw.2.1, hw.2.2.1,
    hw.2.2.2 peopleState.1 peopleState.2 1 7 (bytesOf 8 strFrodo) peopleState_inv (by decide)
      (by decide) (by decide) (by decide)⟩

/-! ## Outstanding allocations -/

theorem SameShape.isSome {h h1 : Heap} (hs : SameShape h h1) (q : Nat) :
    (h1.blocks q).isSome = (h.blocks q).isSome := by
  have := hs.2.2.2.2 q
  cases hb1 : h1.blocks q <;> cases hb : h.blocks q <;> simp_all

theorem allocPtrs_append (l1 l2 : List Event) :
    allocPtrs (l1 ++ l2) = allocPtrs l1 ++ allocPtrs l2 := by
  simp [allocPtrs, List.filterMap_append]

theorem deallocs_append (l1 l2 : List Event) :
    deallocs (l1 ++ l2) = deallocs l1 ++ deallocs l2 := by
  simp [deallocs, List.filterMap_append]

theorem allocPtrs_growth (bytes p d : Nat) :
    allocPtrs (Event.alloc bytes p :: (if d = 0 then [] else [Event.dealloc d])) = [p] := by
  split <;> simp [allocPtrs, List.filterMap]

theorem deallocs_growth (bytes p d : Nat) :
    deallocs (Event.alloc bytes p :: (if d = 0 then [] else [Event.dealloc d])) =
      if d = 0 then [] else [d] := by
  split <;> simp [deallocs, List.filterMap]

/-- What an `allocate` that returned did, when the allocator serves every
request. -/
theorem allocate_ok_heap {L : Layout} {size : Nat} {s s1 : SoA} {h h1 : Heap}
    (hsucc : sizeMod - 1 ≤ h.limit) (hlt : s.m_data < h.next)
    (hal : SoA.allocate L size s h = .ok (s1, h1)) :
    s1 = { s with m_data := h.next, m_size := if size = 0 then 32 else size } ∧
    s.m_size < (if size = 0 then 32 else size) ∧ s.m_allocator ≠ 0 ∧
    h1.limit = h.limit ∧ h1.next = h.next + 1 ∧
    h1.log = h.log ++ Event.alloc ((if size = 0 then 32 else size) * L.tupleSize % sizeMod)
      h.next :: (if s.m_data = 0 then [] else [Event.dealloc s.m_data]) ∧
    ∀ q, (h1.blocks q).isSome ↔
      (q = h.next ∨ ((h.blocks q).isSome ∧ (s.m_data = 0 ∨ q ≠ s.m_data))) := by
  unfold SoA.allocate at hal
  dsimp only at hal
  generalize (if size = 0 then 32 else size) = sz at hal
  have hbytes : sz * L.tupleSize % sizeMod ≤ h.limit := by
    have := Nat.mod_lt (sz * L.tupleSize) (show 0 < sizeMod by decide)
    omega
  by_cases hgt : sz > s.m_size
  · by_cases ha : s.m_allocator = 0
    · simp [hgt, ha] at hal
    · by_cases hd : s.m_data = 0
      · simp only [hgt, not_true_eq_false, if_false, ha, hd, ne_eq, Mallocator.allocate,
          hbytes, if_true, Except.ok.injEq, Prod.mk.injEq] at hal
        obtain ⟨rfl, rfl⟩ := hal
        refine ⟨by simp [hd], hgt, ha, rfl, rfl, by simp [hd], fun q => ?_⟩
        by_cases hq : q = h.next
        · simp [hq]
        · simp [hq, hd]
      · simp only [hgt, not_true_eq_false, if_false, ha, hd, ne_eq, not_false_eq_true,
          if_true, Mallocator.allocate, hbytes] at hal
        split at hal
        · simp at hal
        · rename_i h2 hloop
          have hss : SameShape
              { h with
                next := h.next + 1
                blocks := fun p =>
                  if p = h.next then
                    some ⟨sz * L.tupleSize % sizeMod, h.junk h.next⟩ else h.blocks p
                log := h.log ++ [Event.alloc (sz * L.tupleSize % sizeMod) h.next] } h2 :=
            static_for_loop_keeps _ (fun st => SameShape _ st)
              (fun i st st1 hP hm => hP.trans (memcpy_sameShape hm)) _ _ _ _
              (SameShape.refl _) hloop
          split at hal
          · simp at hal
          · rename_i h3 hfree
            simp only [Except.ok.injEq, Prod.mk.injEq] at hal
            obtain ⟨rfl, rfl⟩ := hal
            unfold Mallocator.deallocate at hfree
            simp only [hd, if_false] at hfree
            cases hb2 : h2.blocks s.m_data with
            | none => simp [hb2] at hfree
            | some b2 =>
              simp only [hb2, Except.ok.injEq] at hfree
              subst hfree
              obtain ⟨hs1, hs2, _, hs4, _⟩ := hss
              refine ⟨rfl, hgt, ha, by simpa using hs1, by simpa using hs2, ?_, fun q => ?_⟩
              · simp [hs4, hd]
              · have hq2 := SameShape.isSome
                  (show SameShape _ h2 from ⟨hs1, hs2, by assumption, hs4, by assumption⟩) q
                by_cases hqd : q = s.m_data
                · have hne : s.m_data ≠ h.next := by omega
                  simp [hqd, hd, hne]
                · simp only [hqd, if_false, hq2]
                  by_cases hq : q = h.next
                  · simp [hq]
                  · simp [hq, hd, hqd]
  · simp [hgt] at hal

/-- An `add` that returned: the growth, if any, returned, and the stores only
changed block contents. -/
theorem add_ok_heap {L : Layout} {args : List (List Nat)} {s s1 : SoA} {h h1 : Heap} {r : Nat}
    (hadd : SoA.add L args s h = .ok (r, s1, h1)) :
    ∃ sA hA, (if s.m_n = s.m_size then SoA.allocate L (s.m_size * 2 % sizeMod) s h
        else .ok (s, h)) = .ok (sA, hA) ∧
      SameShape hA h1 ∧ s1.m_data = sA.m_data ∧ s1.m_size = sA.m_size ∧
      s1.m_allocator = sA.m_allocator := by
  unfold SoA.add at hadd
  cases hpre : (if s.m_n = s.m_size then SoA.allocate L (s.m_size * 2 % sizeMod) s h
      else .ok (s, h)) with
  | error e => simp [hpre] at hadd
  | ok rA =>
    obtain ⟨sA, hA⟩ := rA
    simp only [hpre] at hadd
    split at hadd
    · simp at hadd
    · rename_i h3 hloop
      simp only [Except.ok.injEq, Prod.mk.injEq] at hadd
      obtain ⟨_, rfl, rfl⟩ := hadd
      refine ⟨sA, hA, rfl, ?_, rfl, rfl, rfl⟩
      exact static_for_loop_keeps _ (fun st => SameShape hA st)
        (fun i st st1 hP hst => hP.trans (store_sameShape hst)) _ _ _ _
        (SameShape.refl _) hloop

/-- A `remove` that returned only changed block contents. -/
theorem remove_ok_heap {L : Layout} {index : Nat} {s s1 : SoA} {h h1 : Heap}
    (hrm : SoA.remove L index s h = .ok (s1, h1)) : s1 = s ∧ SameShape h h1 := by
  have hs := (remove_ok_inv hrm).1
  refine ⟨hs, ?_⟩
  unfold SoA.remove at hrm
  by_cases hidx : index < s.m_n
  · simp only [hidx, not_true_eq_false, if_false] at hrm
    split at hrm
    · simp at hrm
    · split at hrm
      · simp at hrm
      · split at hrm
        · simp at hrm
        · rename_i h2 hloop
          simp only [Except.ok.injEq, Prod.mk.injEq] at hrm
          rw [← hrm.2]
          exact static_for_loop_keeps _ (fun st => SameShape h st)
            (fun i st st1 hP hbody => by
              cases hl : st.load (SoA.get L s i (s.m_n - 1)) (L.sizeofNth i) with
              | error e => simp [hl] at hbody
              | ok v =>
                simp only [hl] at hbody
                exact hP.trans (store_sameShape hbody)) _ _ _ _ (SameShape.refl _) hloop
  · simp [hidx] at hrm

/-- Ownership does not depend on block contents. -/
theorem Owns.transfer {s s1 : SoA} {h h1 : Heap} (ho : Owns s h) (hss : SameShape h h1)
    (hd : s1.m_data = s.m_data) (hsz : s1.m_size = s.m_size)
    (ha : s1.m_allocator = s.m_allocator) : Owns s1 h1 := by
  obtain ⟨o1, o2, o3, o4, o5, o6, o7, o8, o9, o10⟩ := ho
  have hlive := hss.isSome
  obtain ⟨s1l, s2n, _, s4, _⟩ := hss
  rw [Owns, hd, hsz, ha, s1l, s2n, s4]
  exact ⟨o1, o2, o3, o4, o5, fun p => by rw [hlive p]; exact o6 p, o7, o8, o9, o10⟩

/-- An `allocate` that returned keeps ownership. -/
theorem Owns.allocate {L : Layout} {size : Nat} {s s1 : SoA} {h h1 : Heap} (ho : Owns s h)
    (hal : SoA.allocate L size s h = .ok (s1, h1)) : Owns s1 h1 := by
  obtain ⟨o1, o2, o3, o4, o5, o6, o7, o8, o9, o10⟩ := ho
  obtain ⟨rfl, hgt, ha, hlim, hnext, hlog, hlive⟩ := allocate_ok_heap o2 o5 hal
  have hA : allocPtrs h1.log = allocPtrs h.log ++ [h.next] := by
    rw [hlog, allocPtrs_append, allocPtrs_growth]
  have hD : deallocs h1.log = deallocs h.log ++ (if s.m_data = 0 then [] else [s.m_data]) := by
    rw [hlog, deallocs_append, deallocs_growth]
  have hnot : h.next ∉ deallocs h.log := fun hmem => by have := o8 _ hmem; omega
  refine ⟨by omega, by omega, ?_, fun _ => ha, by simp only; omega, fun p => ?_, ?_, ?_, ?_,
    ?_⟩
  · simp only
    constructor
    · intro h0; omega
    · intro h0; omega
  · rw [hlive p]
    simp only
    constructor
    · rintro (hp | ⟨hp, hne⟩)
      · exact ⟨hp, by omega⟩
      · have := (o6 p).mp hp
        rcases hne with h0 | h0
        · exact absurd h0 this.2
        · exact absurd this.1 h0
    · rintro ⟨hp, _⟩
      exact Or.inl hp
  · intro p hp
    rw [hA, List.mem_append, List.mem_singleton] at hp
    rcases hp with hp | hp
    · have := o7 p hp; omega
    · omega
  · intro p hp
    rw [hD, List.mem_append] at hp
    rcases hp with hp | hp
    · have := o8 p hp; omega
    · by_cases hd : s.m_data = 0
      · simp [hd] at hp
      · simp only [hd, if_false, List.mem_singleton] at hp
        omega
  · intro p hp
    rw [hA, List.mem_append, List.mem_singleton] at hp
    rw [hD, List.count_append]
    simp only
    rcases hp with hp | hp
    · have hlt := (o7 p hp).2
      have hne : p ≠ h.next := by omega
      have hold := o9 p hp
      rw [hold, if_neg hne]
      by_cases hd : s.m_data = 0
      · have hp0 := (o7 p hp).1
        have : p ≠ s.m_data := by omega
        simp [hd, hp0]
      · by_cases hpd : p = s.m_data
        · simp [hd, hpd]
        · have hpd2 : s.m_data ≠ p := Ne.symm hpd
          simp [hd, hpd, List.count_singleton, hpd2]
    · subst hp
      rw [List.count_eq_zero_of_not_mem hnot, if_pos rfl]
      by_cases hd : s.m_data = 0
      · simp [hd]
      · have hne : s.m_data ≠ h.next := by omega
        simp [hd, List.count_singleton, hne]
  · intro _
    rw [hA]
    simp

theorem Owns.step {L : Layout} {op : Op} {s s1 : SoA} {h h1 : Heap} (ho : Owns s h)
    (hstep : op.step L s h = .ok (s1, h1)) : Owns s1 h1 := by
  cases op with
  | allocate size => exact ho.allocate (show SoA.allocate L size s h = .ok (s1, h1) from hstep)
  | add args =>
    simp only [Op.step] at hstep
    cases hadd : SoA.add L args s h with
    | error e => simp [hadd] at hstep
    | ok r =>
      obtain ⟨r0, s2, h2⟩ := r
      simp only [hadd, Except.ok.injEq, Prod.mk.injEq] at hstep
      obtain ⟨rfl, rfl⟩ := hstep
      obtain ⟨sA, hA, hpre, hss, hd, hsz, ha⟩ := add_ok_heap hadd
      by_cases hfull : s.m_n = s.m_size
      · rw [if_pos hfull] at hpre
        exact (ho.allocate hpre).transfer hss hd hsz ha
      · rw [if_neg hfull] at hpre
        simp only [Except.ok.injEq, Prod.mk.injEq] at hpre
        obtain ⟨rfl, rfl⟩ := hpre
        exact ho.transfer hss hd hsz ha
  | remove index =>
    obtain ⟨hs, hss⟩ :=
      remove_ok_heap (show SoA.remove L index s h = .ok (s1, h1) from hstep)
    exact ho.transfer hss (by rw [hs]) (by rw [hs]) (by rw [hs])

theorem runOps_owns (L : Layout) (ops : List Op) :
    ∀ (s s1 : SoA) (h h1 : Heap), Owns s h → runOps L ops s h = .ok (s1, h1) →
      Owns s1 h1 := by
  induction ops with
  | nil =>
    intro s s1 h h1 ho hrun
    simp only [runOps, Except.ok.injEq, Prod.mk.injEq] at hrun
    obtain ⟨rfl, rfl⟩ := hrun
    exact ho
  | cons op rest ih =>
    intro s s1 h h1 ho hrun
    simp only [runOps] at hrun
    cases hstep : op.step L s h with
    | error e => simp [hstep] at hrun
    | ok r =>
      obtain ⟨s2, h2⟩ := r
      simp only [hstep] at hrun
      exact ih s2 s1 h2 h1 (ho.step hstep) hrun

theorem new_owns (allocator : Nat) (h0 : Heap) (hnext : 0 < h0.next)
    (hsucc : sizeMod - 1 ≤ h0.limit) (hempty : ∀ p, h0.blocks p = none)
    (hlog : h0.log = []) : Owns (SoA.new allocator) h0 := by
  refine ⟨hnext, hsucc, by simp [SoA.new], by simp [SoA.new], by simpa [SoA.new] using hnext,
    fun p => by simp [hempty p, SoA.new], ?_, ?_, ?_, by simp [SoA.new]⟩
  · intro p hp; simp [hlog, allocPtrs] at hp
  · intro p hp; simp [hlog, deallocs] at hp
  · intro p hp; simp [hlog, allocPtrs] at hp

/-- The destructor on a container that holds a live block: its log, and the
blocks it leaves. -/
theorem destroy_blocks (L : Layout) (s : SoA) (h : Heap) (b : Block) (hpos : 0 < s.m_size)
    (halloc : s.m_allocator ≠ 0) (hd : s.m_data ≠ 0) (hb : h.blocks s.m_data = some b) :
    ∃ h1, SoA.destroy L s h = .ok h1 ∧
      h1.log = h.log ++ dtorEvents L.kNumArrays s.m_size ++ [Event.dealloc s.m_data] ∧
      ∀ q, h1.blocks q = if q = s.m_data then none else h.blocks q := by
  obtain ⟨h3, hrun, hP⟩ := static_for_loop_rule
    (fun i (h1 : Heap) =>
      static_for 0 L.kNumArrays (fun array_i (h2 : Heap) =>
        (Except.ok { h2 with log := h2.log ++ [Event.dtor array_i i] } : Except Err Heap)) h1)
    (fun i h1 => h1 = { h with log := h.log ++ dtorEvents L.kNumArrays i })
    s.m_size 0 h (by simp [dtorEvents])
    (by
      intro i h1 _ _ hP
      refine ⟨_, destroy_fields L.kNumArrays i h1, ?_⟩
      rw [hP]
      simp [dtorEvents_succ])
  simp only [Nat.zero_add] at hP
  have hb3 : h3.blocks s.m_data = some b := by rw [hP]; exact hb
  refine ⟨{ h3 with
            blocks := fun q => if q = s.m_data then none else h3.blocks q
            log := h3.log ++ [Event.dealloc s.m_data] }, ?_, ?_, ?_⟩
  · unfold SoA.destroy
    simp only [gt_iff_lt, hpos, if_true, hrun, halloc, if_false]
    simp [Mallocator.deallocate, hd, hb3]
  · simp [hP]
  · intro q; simp [hP]

theorem deallocs_dtorEvents (k n : Nat) : deallocs (dtorEvents k n) = [] := by
  simp only [deallocs, List.filterMap_eq_nil_iff]
  intro e he
  simp only [dtorEvents, List.mem_flatMap, List.mem_map] at he
  obtain ⟨i, _, a, _, rfl⟩ := he
  rfl

/-- C12: with an allocator that has nothing outstanding and serves every
request, in every state reached from a new container by `allocate`, `add`
and `remove` calls that return, the container holds a block exactly when
its capacity is above 0, that block is the only live one, and every block
that was handed out has been passed to `deallocate` exactly once, except the
held one, which has not; the destructor of a container of length above 0
returns after exactly one more `deallocate`, that of the held block, and
leaves no live block. -/
theorem one_outstanding_block (L : Layout) (allocator : Nat) (h0 : Heap)
    (hnext : 0 < h0.next) (hsucc : sizeMod - 1 ≤ h0.limit) (hempty : ∀ p, h0.blocks p = none)
    (hlog : h0.log = []) (ops : List Op) (s : SoA) (h : Heap)
    (hrun : runOps L ops (SoA.new allocator) h0 = .ok (s, h)) :
    (s.m_data ≠ 0 ↔ 0 < s.m_size) ∧
    (∀ p, (h.blocks p).isSome ↔ (p = s.m_data ∧ 0 < s.m_size)) ∧
    (∀ p ∈ allocPtrs h.log, (deallocs h.log).count p = if p = s.m_data then 0 else 1) ∧
    (0 < (SoA.end_ s).i →
      ∃ h1, SoA.destroy L s h = .ok h1 ∧
        h1.log = h.log ++ dtorEvents L.kNumArrays s.m_size ++ [Event.dealloc s.m_data] ∧
        deallocs h1.log = deallocs h.log ++ [s.m_data] ∧
        ∀ p, h1.blocks p = none) := by
  have ho := runOps_owns L ops (SoA.new allocator) s h0 h
    (new_owns allocator h0 hnext hsucc hempty hlog) hrun
  have hle := runOps_le L ops (SoA.new allocator) s h0 h (Nat.le_refl 0) hrun
  obtain ⟨_, _, o3, o4, _, o6, _, _, o9, _⟩ := ho
  have hiff : s.m_data ≠ 0 ↔ 0 < s.m_size := by
    constructor
    · intro hd
      have : s.m_size ≠ 0 := fun hz => hd (o3.mpr hz)
      omega
    · intro hpos hd
      have := o3.mp hd
      omega
  refine ⟨hiff, fun p => ?_, o9, fun hlen => ?_⟩
  · rw [o6 p, hiff]
  · have hlen1 : 0 < s.m_n := hlen
    have hpos : 0 < s.m_size := by omega
    have hd : s.m_data ≠ 0 := hiff.mpr hpos
    have hsome := (o6 s.m_data).mpr ⟨rfl, hd⟩
    obtain ⟨b, hb⟩ := Option.isSome_iff_exists.mp hsome
    obtain ⟨h1, hdes, hlog1, hblocks⟩ :=
      destroy_blocks L s h b hpos (o4 (by omega)) hd hb
    refine ⟨h1, hdes, hlog1, ?_, fun p => ?_⟩
    · rw [hlog1, deallocs_append, deallocs_append, deallocs_dtorEvents]
      simp [deallocs]
    · rw [hblocks p]
      by_cases hp : p = s.m_data
      · simp [hp]
      · simp only [hp, if_false]
        cases hbp : h.blocks p with
        | none => rfl
        | some b1 =>
          have := (o6 p).mp (by simp [hbp])
          exact absurd this.1 hp

theorem one_outstanding_block_witness :
    runOps mainLayout
        [.add (person 0 strGandalf 2019), .add (person 1 strFrodo 33),
          .add (person 2 strSamwise 61), .remove 0] (SoA.new 1) testHeap =
      .ok (scenarioState.1, scenarioState.2) ∧
    scenarioState.1.m_size = 32 ∧ scenarioState.1.m_data = 1 ∧
    allocPtrs scenarioState.2.log = [1] ∧ deallocs scenarioState.2.log = [] ∧
    0 < (SoA.end_ scenarioState.1).i ∧
    ((scenarioState.1.m_data ≠ 0 ↔ 0 < scenarioState.1.m_size) ∧
      (∀ p, (scenarioState.2.blocks p).isSome ↔
        (p = scenarioState.1.m_data ∧ 0 < scenarioState.1.m_size)) ∧
      (∀ p ∈ allocPtrs scenarioState.2.log,
        (deallocs scenarioState.2.log).count p = if p = scenarioState.1.m_data then 0 else 1) ∧
      (0 < (SoA.end_ scenarioState.1).i →
        ∃ h1, SoA.destroy mainLayout scenarioState.1 scenarioState.2 = .ok h1 ∧
          h1.log = scenarioState.2.log ++
            dtorEvents mainLayout.kNumArrays scenarioState.1.m_size ++
              [Event.dealloc scenarioState.1.m_data] ∧
          deallocs h1.log = deallocs scenarioState.2.log ++ [scenarioState.1.m_data] ∧
          ∀ p, h1.blocks p = none)) :=
  ⟨rfl, by decide, by decide, by decide, by decide, by decide,
    one_outstanding_block mainLayout 1 testHeap (by decide) (by decide) (fun _ => rfl) rfl
      [.add (person 0 strGandalf 2019), .add (person 1 strFrodo 33),
        .add (person 2 strSamwise 61), .remove 0] scenarioState.1 scenarioState.2 rfl⟩

/-! ## A request that wraps around -/

/-- C5, as stated, fails: on the container of `main` after its three `add`
calls (capacity 32), `allocate(2 ^ 61)` requests `2 ^ 61 * 24` bytes modulo
`2 ^ 64`, that is 0 bytes; the allocator serves the request with block 2,
and the copy of the three elements into that block goes outside it: the call
does not return with the elements preserved. -/
theorem allocate_wrapped_request_counterexample :
    peopleState.1.m_size < 2305843009213693952 ∧
    2305843009213693952 * mainLayout.tupleSize % sizeMod = 0 ∧
    (Mallocator.allocate peopleState.2 0).1 = 2 ∧
    (match SoA.allocate mainLayout 2305843009213693952 peopleState.1 peopleState.2 with
      | .ok _ => none
      | .error e => some e) = some Err.ub := by
  decide

end StructureOfArrays
